import Mathlib

/-!
Verification development for the streaming approximate histogram of
perf-timer (`src/perf_timer/_histogram.py`, class `ApproximateHistogram`).

Shallow embedding conventions:
* Python floats are modelled as rationals (`ℚ`); all arithmetic the code
  performs on the write path is exact field arithmetic, so `ℚ` is faithful.
* The `math.inf` / `-math.inf` sentinels stored in `_min` / `_max` are
  modelled by the three-valued type `XRat`.
* Fallible operations return `Except PyErr _`; each `PyErr` constructor
  names the Python exception class the interpreter would raise there.
* Python list mutation is modelled by returning the new list; `list.insert`,
  slice assignment and `bisect_right` are translated operation by operation.
* The quantile interpolation can take a real square root (`** .5`), so the
  value of a quantile query is modelled by `PFloat`, an IEEE-style float
  value over `ℝ`; every other operation stays inside `ℚ`.
-/

deriving instance DecidableEq for Except

namespace PerfTimer

/-- Python exception classes that the histogram code paths can raise. -/
inductive PyErr where
  | valueError
  | zeroDivisionError
  | indexError
  | assertionError
deriving DecidableEq, Repr

/-- Value of a Python float variable that can hold the `math.inf` or
`-math.inf` sentinels from `__init__` (used for `_min` and `_max`). -/
inductive XRat where
  | ninf
  | fin (q : ℚ)
  | inf
deriving DecidableEq, Repr

/-- Strict comparison of two such values (IEEE ordering of non-nan floats). -/
def XRat.ltX : XRat → XRat → Bool
  | .ninf, .ninf => false
  | .ninf, _ => true
  | _, .ninf => false
  | .fin a, .fin b => decide (a < b)
  | .fin _, .inf => true
  | .inf, _ => false

/-- Python `min(self._min, point)`: CPython `min(a, b)` returns `b` iff `b < a`. -/
def XRat.minQ (a : XRat) (p : ℚ) : XRat := if XRat.ltX (.fin p) a then .fin p else a

/-- Python `max(self._max, point)`: CPython `max(a, b)` returns `b` iff `a < b`. -/
def XRat.maxQ (a : XRat) (p : ℚ) : XRat := if XRat.ltX a (.fin p) then .fin p else a

/-- Python tuple comparison `(a1, a2) < (b1, b2)`: lexicographic. The bins
list stores `(point, count)` tuples and `bisect_right` compares them with
this ordering (first by value, then by weight). -/
def pairLt (a b : ℚ × ℚ) : Bool :=
  decide (a.1 < b.1) || (decide (a.1 = b.1) && decide (a.2 < b.2))

/-- Python `<` on floats, as the Bool comparison used by `bisect_right`
on the prefix-sum list. -/
def ratLt (a b : ℚ) : Bool := decide (a < b)

/-- The loop of Python `bisect.bisect_right(a, x, lo, hi)`:
`while lo < hi: mid = (lo+hi)//2; if x < a[mid]: hi = mid else: lo = mid+1`.
The loop shrinks `hi - lo` by at least one per iteration, so running it
with structural fuel `fuel ≥ hi - lo` computes the exact fixpoint of the
Python loop; the full-range entry point below supplies `len(a)`.  The
default value fed to `getD` is irrelevant: `mid < hi ≤ len a` holds at
every probe. -/
def bisectRightAux {α : Type} (ltb : α → α → Bool) (l : List α) (x : α) :
    ℕ → ℕ → ℕ → ℕ
  | 0, lo, _ => lo
  | fuel + 1, lo, hi =>
    if lo < hi then
      if ltb x (l.getD ((lo + hi) / 2) x) then bisectRightAux ltb l x fuel lo ((lo + hi) / 2)
      else bisectRightAux ltb l x fuel ((lo + hi) / 2 + 1) hi
    else lo

/-- Python `bisect.bisect_right(a, x)` (full range `lo = 0`, `hi = len(a)`). -/
def bisectRight {α : Type} (ltb : α → α → Bool) (l : List α) (x : α) : ℕ :=
  bisectRightAux ltb l x l.length 0 l.length

/-- Python `list.insert(i, a)`: insert before position `i`, clamping an
out-of-range index (no exception). -/
def pyInsert {α : Type} (i : ℕ) (a : α) (l : List α) : List α :=
  l.take i ++ a :: l.drop i

/-- The gap list a bins list induces: entry `i` is
`bins[i+1].point - bins[i].point` (the documented meaning of `_costs`). -/
def gaps : List (ℚ × ℚ) → List ℚ
  | a :: b :: t => (b.1 - a.1) :: gaps (b :: t)
  | _ => []

/-- `ApproximateHistogram._update_costs(costs, l, i, val)`: update the costs
array to reflect `l.insert(i, val)` having just happened (`l` is the list
after the insertion).  Out-of-range subscripts `l[i-1]` / `l[i+1]` raise
IndexError in Python and are modelled by explicit bound checks; the `getD`
defaults behind a passed check are irrelevant. -/
def updateCosts (costs : List ℚ) (l : List (ℚ × ℚ)) (i : ℕ) (val : ℚ × ℚ) :
    Except PyErr (List ℚ) :=
  if 0 < i then
    if i - 1 < l.length then
      let costs1 := pyInsert (i - 1) (val.1 - (l.getD (i - 1) (0, 0)).1) costs
      if i < costs1.length then
        if i + 1 < l.length then
          .ok (costs1.set i ((l.getD (i + 1) (0, 0)).1 - val.1))
        else .error .indexError
      else .ok costs1
    else .error .indexError
  else if 1 < l.length then
    .ok (((l.getD 1 (0, 0)).1 - val.1) :: costs)
  else .ok costs

/-- `ApproximateHistogram._update_costs_for_merge(costs, l, i, val)`: update
the costs array to reflect `l[i:i+2] = (val,)` having just happened (`l` is
the list after the merge splice).  Python slice assignment
`costs[a:b] = xs` is `take a ++ xs ++ drop b`; the subscripts into `l`
raise IndexError when out of range. -/
def updateCostsForMerge (costs : List ℚ) (l : List (ℚ × ℚ)) (i : ℕ) (val : ℚ × ℚ) :
    Except PyErr (List ℚ) :=
  if 0 < i ∧ i < costs.length - 1 then
    if i - 1 < l.length ∧ i + 1 < l.length then
      .ok (costs.take (i - 1) ++
        [val.1 - (l.getD (i - 1) (0, 0)).1, (l.getD (i + 1) (0, 0)).1 - val.1] ++
        costs.drop (i + 2))
    else .error .indexError
  else if 0 < i then
    if i - 1 < l.length then
      .ok (costs.take (i - 1) ++ [val.1 - (l.getD (i - 1) (0, 0)).1] ++ costs.drop (i + 1))
    else .error .indexError
  else
    if i + 1 < l.length then
      .ok (costs.take i ++ [(l.getD (i + 1) (0, 0)).1 - val.1] ++ costs.drop (i + 2))
    else .error .indexError

/-- `ApproximateHistogram._insert_with_cost(costs, l, val)`: locate the index
with `bisect_right`, insert, and update the costs array.  Returns the new
`(l, costs)` pair (the Python code mutates both lists in place). -/
def insertWithCost (costs : List ℚ) (l : List (ℚ × ℚ)) (val : ℚ × ℚ) :
    Except PyErr (List (ℚ × ℚ) × List ℚ) :=
  let i := bisectRight pairLt l val
  let l2 := pyInsert i val l
  match updateCosts costs l2 i val with
  | .error e => .error e
  | .ok c => .ok (l2, c)

/-- Python `costs.index(min(costs))`: `min` of an empty sequence raises
ValueError; otherwise `index` returns the first position holding the
minimum, i.e. the leftmost cheapest pair. -/
def minIndex (l : List ℚ) : Except PyErr ℕ :=
  match l.min? with
  | none => .error .valueError
  | some m => .ok (l.indexOf m)

/-- The state of one `ApproximateHistogram` object. -/
structure ApproximateHistogram where
  maxBins : ℤ
  bins : List (ℚ × ℚ)
  costs : List ℚ
  count : ℕ
  hmin : XRat
  hmax : XRat
deriving DecidableEq, Repr

/-- The object `__init__(max_bins)` builds: no validation of `max_bins`
whatsoever, empty bins and costs, zero count, infinite sentinels. -/
def emptyHist (maxBins : ℤ) : ApproximateHistogram :=
  ⟨maxBins, [], [], 0, .inf, .ninf⟩

/-- `ApproximateHistogram(max_bins)` as a fallible constructor call: the
body contains no raise and no check, so it always succeeds. -/
def mkHistogram (maxBins : ℤ) : Except PyErr ApproximateHistogram :=
  .ok (emptyHist maxBins)

/-- `ApproximateHistogram.add(point)`.  Count and the min/max sentinels are
updated, the singleton bin `(point, 1)` is inserted with its cost update,
and if the capacity is exceeded the cheapest adjacent pair is merged into
its weighted mean.  Python raises (modelled by `.error`) when `min` is
taken of an empty costs list, when the two-element destructuring of
`bins[i:i+2]` fails, when the merged weight is zero (float division), or
when a cost update subscripts out of range. -/
def add (h : ApproximateHistogram) (point : ℚ) : Except PyErr ApproximateHistogram :=
  let count := h.count + 1
  let hmin := h.hmin.minQ point
  let hmax := h.hmax.maxQ point
  match insertWithCost h.costs h.bins (point, 1) with
  | .error e => .error e
  | .ok (bins, costs) =>
    if h.maxBins < (bins.length : ℤ) then
      match minIndex costs with
      | .error e => .error e
      | .ok i =>
        if i + 1 < bins.length then
          let q0k0 := bins.getD i (0, 0)
          let q1k1 := bins.getD (i + 1) (0, 0)
          let cnt := q0k0.2 + q1k1.2
          if cnt = 0 then .error .zeroDivisionError
          else
            let median := (q0k0.1 * q0k0.2 + q1k1.1 * q1k1.2) / cnt
            let bins2 := bins.take i ++ [(median, cnt)] ++ bins.drop (i + 2)
            match updateCostsForMerge costs bins2 i (median, cnt) with
            | .error e => .error e
            | .ok costs2 => .ok ⟨h.maxBins, bins2, costs2, count, hmin, hmax⟩
        else .error .valueError
    else .ok ⟨h.maxBins, bins, costs, count, hmin, hmax⟩

/-- A sequence of `add` calls, stopping at the first exception. -/
def addList (h : ApproximateHistogram) : List ℚ → Except PyErr ApproximateHistogram
  | [] => .ok h
  | p :: ps =>
    match add h p with
    | .error e => .error e
    | .ok h2 => addList h2 ps

/-- `ApproximateHistogram.sum()`: the weighted sum over the bins.  Total:
Python `sum` of an empty generator is `0`. -/
def histSum (h : ApproximateHistogram) : ℚ :=
  (h.bins.map fun b => b.1 * b.2).sum

/-- `ApproximateHistogram.mean()`: the weighted sum divided by `_count`;
Python float division raises ZeroDivisionError when `_count == 0`. -/
def mean (h : ApproximateHistogram) : Except PyErr ℚ :=
  if (h.count : ℚ) = 0 then .error .zeroDivisionError
  else .ok ((h.bins.map fun b => b.1 * b.2).sum / (h.count : ℚ))

/-- `ApproximateHistogram.std()`: population standard deviation over the
bins.  `self.mean()` is evaluated first (and raises on an empty histogram);
`math.sqrt` raises ValueError on a negative argument. -/
noncomputable def std (h : ApproximateHistogram) : Except PyErr ℝ :=
  match mean h with
  | .error e => .error e
  | .ok m =>
    let sumSquares := (h.bins.map fun b => (b.1 - m) ^ 2 * b.2).sum
    if sumSquares / (h.count : ℚ) < 0 then .error .valueError
    else .ok (Real.sqrt ((sumSquares / (h.count : ℚ) : ℚ) : ℝ))

/-- `itertools.accumulate` with a running start value. -/
def accumulateFrom (acc : ℚ) : List ℚ → List ℚ
  | [] => []
  | x :: xs => (acc + x) :: accumulateFrom (acc + x) xs

/-- `itertools.accumulate` (running inclusive prefix sums). -/
def accumulate (l : List ℚ) : List ℚ := accumulateFrom 0 l

/-- The prefix-sum list built at the top of `quantile()`:
`[x - (y/2 if y > 1 else 0) for x, (_, y) in zip(accumulate(...), bins)]`. -/
def histSums (bins : List (ℚ × ℚ)) : List ℚ :=
  ((accumulate (bins.map fun b => b.2)).zip bins).map
    fun xb => xb.1 - (if 1 < xb.2.2 then xb.2.2 / 2 else 0)

/-- Value of the Python float expression a quantile query returns: an
IEEE-style float over `ℝ` (the interpolation can take a real square
root, and the min/max sentinels can be infinite). -/
inductive PFloat where
  | nan
  | ninf
  | inf
  | fin (x : ℝ)

/-- Read a min/max sentinel as a float value. -/
noncomputable def XRat.toPFloat : XRat → PFloat
  | .ninf => .ninf
  | .fin q => .fin (q : ℝ)
  | .inf => .inf

/-- IEEE float negation. -/
noncomputable def PFloat.neg : PFloat → PFloat
  | .nan => .nan
  | .ninf => .inf
  | .inf => .ninf
  | .fin a => .fin (-a)

/-- IEEE float addition (first matching row applies). -/
noncomputable def PFloat.add : PFloat → PFloat → PFloat
  | .nan, _ => .nan
  | _, .nan => .nan
  | .inf, .ninf => .nan
  | .ninf, .inf => .nan
  | .inf, _ => .inf
  | _, .inf => .inf
  | .ninf, _ => .ninf
  | _, .ninf => .ninf
  | .fin a, .fin b => .fin (a + b)

/-- IEEE float subtraction. -/
noncomputable def PFloat.sub (a b : PFloat) : PFloat := a.add b.neg

/-- IEEE float multiplication by a finite rational value. -/
noncomputable def PFloat.mulQ : PFloat → ℚ → PFloat
  | .nan, _ => .nan
  | .fin a, s => .fin (a * (s : ℝ))
  | .inf, s => if s = 0 then .nan else if 0 < s then .inf else .ninf
  | .ninf, s => if s = 0 then .nan else if 0 < s then .ninf else .inf

/-- IEEE float division by a finite rational value.  Every call site in the
quantile code is guarded by a strict positivity or disequality test on the
divisor, so the `s = 0` row (where Python would raise ZeroDivisionError)
is never taken. -/
noncomputable def PFloat.divQ (a : PFloat) (s : ℚ) : PFloat :=
  if s = 0 then .nan
  else match a with
  | .nan => .nan
  | .fin x => .fin (x / (s : ℝ))
  | .inf => if 0 < s then .inf else .ninf
  | .ninf => if 0 < s then .ninf else .inf

open scoped Classical in
/-- IEEE float multiplication by a finite real value (the interpolation
ratio, which can involve a real square root). -/
noncomputable def PFloat.mulR (a : PFloat) (x : ℝ) : PFloat :=
  match a with
  | .nan => .nan
  | .fin v => .fin (v * x)
  | .inf => if x = 0 then .nan else if 0 < x then .inf else .ninf
  | .ninf => if x = 0 then .nan else if 0 < x then .ninf else .inf

/-- `ApproximateHistogram._quantile(sums, q)` for one fraction `q`.
Clamps at the `[0, 1]` boundary, locates the target prefix sum with
`bisect_right`, then interpolates: plain linear interpolation when both
neighbouring weights are at most 1, trapezoid interpolation otherwise.
The `assert bp_ratio.imag == 0` guard fails (AssertionError) exactly when
the discriminant of the quadratic is negative, since Python `x ** .5`
returns a complex number for negative `x`.  The subscripts `bins[i]`,
`bins[i+1]` and `sums[i]` are always in range because
`i ≤ len(sums) - 1 = len(bins) - 1`; `getD` models them. -/
noncomputable def quantileOne (h : ApproximateHistogram) (sums : List ℚ) (q : ℚ) :
    Except PyErr PFloat :=
  if q ≤ 0 then .ok h.hmin.toPFloat
  else if 1 ≤ q then .ok h.hmax.toPFloat
  else
    let bins := h.bins
    let target : ℚ := q * ((h.count : ℚ) - 1) + 1
    let i : ℤ := (bisectRight ratLt sums target : ℤ) - 1
    let left : XRat × ℚ :=
      if 0 ≤ i then (.fin (bins.getD i.toNat (0, 0)).1, (bins.getD i.toNat (0, 0)).2)
      else (h.hmin, 0)
    let right : XRat × ℚ :=
      if i + 1 < (bins.length : ℤ) then
        (.fin (bins.getD (i + 1).toNat (0, 0)).1, (bins.getD (i + 1).toNat (0, 0)).2)
      else (h.hmax, 0)
    let l0 := left.1.toPFloat
    let r0 := right.1.toPFloat
    let l1 := left.2
    let r1 := right.2
    let s : ℚ := target - (if 0 ≤ i then sums.getD i.toNat 0 else 1)
    if l1 ≤ 1 ∧ r1 ≤ 1 then
      .ok (if 0 < r1 then l0.add (((r0.sub l0).mulQ s).divQ r1) else l0)
    else
      let r1b : ℚ := if r1 = 1 then 2 else r1
      if l1 = r1b then .ok (((r0.sub l0).mulQ (s / l1)).add l0)
      else
        let disc : ℚ := l1 ^ 2 - 2 * s * (l1 - r1b)
        if disc < 0 then .error .assertionError
        else .ok ((r0.sub l0).mulR (((l1 : ℝ) - Real.sqrt (disc : ℝ)) / ((l1 : ℝ) - (r1b : ℝ))) |>.add l0)

/-- The argument of `quantile(q)`: Python dispatches on
`isinstance(q, Number)` and wraps a single number into a one-tuple. -/
inductive QArg where
  | num (q : ℚ)
  | seq (qs : List ℚ)

/-- The generator expression `list(self._quantile(sums, q_item) for q_item
in q)`: sequential evaluation, the first exception propagates. -/
noncomputable def quantileList (h : ApproximateHistogram) (sums : List ℚ) :
    List ℚ → Except PyErr (List PFloat)
  | [] => .ok []
  | q :: qs =>
    match quantileOne h sums q with
    | .error e => .error e
    | .ok v =>
      match quantileList h sums qs with
      | .error e => .error e
      | .ok vs => .ok (v :: vs)

/-- `ApproximateHistogram.quantile(q)`: wrap a scalar argument into a
one-tuple, build the prefix-sum list once, and return the list of
per-fraction results (the method always returns a list, also for a
scalar argument). -/
noncomputable def quantilePy (h : ApproximateHistogram) (a : QArg) :
    Except PyErr (List PFloat) :=
  let qs := match a with | .num q => [q] | .seq qs => qs
  let sums := histSums h.bins
  quantileList h sums qs

/-- The raw points in ascending order (reference sorted sample). -/
def sortPoints (ps : List ℚ) : List ℚ := List.insertionSort (· ≤ ·) ps

/-- Reference quantile, following the words of the spec: the conventional
linear-interpolation sample quantile on the sorted raw points.  With
`h = q * (N - 1)` the estimate is
`xs[⌊h⌋] + (h - ⌊h⌋) * (xs[⌊h⌋ + 1] - xs[⌊h⌋])` (the out-of-range access
at `q = 1` is multiplied by a zero fraction). -/
def refQuantile (xs : List ℚ) (q : ℚ) : ℚ :=
  let h : ℚ := q * ((xs.length : ℚ) - 1)
  let j : ℤ := ⌊h⌋
  xs.getD j.toNat 0 + (h - (j : ℚ)) * (xs.getD (j.toNat + 1) 0 - xs.getD j.toNat 0)

/-- The weighted value sum of a bins list (the quantity `sum()` returns). -/
def valSum (l : List (ℚ × ℚ)) : ℚ := (l.map fun b => b.1 * b.2).sum

/-- The total weight of a bins list. -/
def wSum (l : List (ℚ × ℚ)) : ℚ := (l.map fun b => b.2).sum

/-- The lexicographic order on `(value, weight)` pairs, as a proposition. -/
def pairLeP (a b : ℚ × ℚ) : Prop := a.1 < b.1 ∨ (a.1 = b.1 ∧ a.2 ≤ b.2)

/-- The structural invariant the histogram maintains: bins sorted ascending
by value, the cost ledger equal to the live gap list, every weight at
least 1, and the bin count within capacity. -/
def Invariant (s : ApproximateHistogram) : Prop :=
  s.bins.Pairwise (fun a b => a.1 ≤ b.1) ∧
  s.costs = gaps s.bins ∧
  (∀ b ∈ s.bins, 1 ≤ b.2) ∧
  (s.bins.length : ℤ) ≤ s.maxBins

/-! ### List surgery lemmas -/

lemma pyInsert_perm {α : Type} (i : ℕ) (a : α) (l : List α) :
    List.Perm (pyInsert i a l) (a :: l) := by
  have h1 : List.Perm (l.take i ++ a :: l.drop i) (a :: (l.take i ++ l.drop i)) :=
    List.perm_middle
  rw [List.take_append_drop] at h1
  exact h1

lemma sum_map_pyInsert (f : ℚ × ℚ → ℚ) (i : ℕ) (a : ℚ × ℚ) (l : List (ℚ × ℚ)) :
    ((pyInsert i a l).map f).sum = f a + (l.map f).sum := by
  rw [((pyInsert_perm i a l).map f).sum_eq]
  simp

lemma length_pyInsert {α : Type} (i : ℕ) (a : α) (l : List α) :
    (pyInsert i a l).length = l.length + 1 :=
  (pyInsert_perm i a l).length_eq.trans (by simp)

/-- Decompose a list around two adjacent positions. -/
lemma list_split2 {α : Type} (l : List α) (i : ℕ) (h : i + 1 < l.length) :
    l = l.take i ++ l.get ⟨i, by omega⟩ :: l.get ⟨i + 1, by omega⟩ :: l.drop (i + 2) := by
  conv_lhs => rw [← List.take_append_drop i l]
  rw [List.drop_eq_getElem_cons (show i < l.length by omega), List.drop_eq_getElem_cons h]
  simp [List.get_eq_getElem]

lemma sum_map_splice2 (f : ℚ × ℚ → ℚ) (l : List (ℚ × ℚ)) (i : ℕ) (v : ℚ × ℚ)
    (h : i + 1 < l.length) :
    ((l.take i ++ [v] ++ l.drop (i + 2)).map f).sum
      = (l.map f).sum - f (l.get ⟨i, by omega⟩) - f (l.get ⟨i + 1, by omega⟩) + f v := by
  have hsplit : (l.map f).sum = ((l.take i).map f).sum + (f (l.get ⟨i, by omega⟩) +
      (f (l.get ⟨i + 1, by omega⟩) + ((l.drop (i + 2)).map f).sum)) := by
    conv_lhs => rw [list_split2 l i h]
    simp only [List.map_append, List.map_cons, List.sum_append, List.sum_cons]
  rw [hsplit]
  simp only [List.map_append, List.map_cons, List.map_nil, List.sum_append, List.sum_cons,
    List.sum_nil]
  ring

lemma length_splice2 {α : Type} (l : List α) (i : ℕ) (v : α) (h : i + 1 < l.length) :
    (l.take i ++ [v] ++ l.drop (i + 2)).length = l.length - 1 := by
  simp [List.length_take, List.length_drop]
  omega

/-! ### Unfolding the ok cases of insertion and add -/

lemma insertWithCost_ok {costs : List ℚ} {l : List (ℚ × ℚ)} {val : ℚ × ℚ}
    {bl : List (ℚ × ℚ)} {cl : List ℚ}
    (h : insertWithCost costs l val = .ok (bl, cl)) :
    bl = pyInsert (bisectRight pairLt l val) val l ∧
      updateCosts costs (pyInsert (bisectRight pairLt l val) val l)
        (bisectRight pairLt l val) val = .ok cl := by
  simp only [insertWithCost] at h
  split at h
  · cases h
  · next c heq =>
    cases h
    exact ⟨rfl, heq⟩

/-- Everything a successful `add` step guarantees about the scalar summaries
of the state: the capacity field is unchanged, the count advances, the
min/max sentinels fold the new point in, the weighted value sum grows by
the point, and the total weight grows by one. -/
lemma add_ok_step {h : ApproximateHistogram} {p : ℚ} {h2 : ApproximateHistogram}
    (hok : add h p = .ok h2) :
    h2.maxBins = h.maxBins ∧ h2.count = h.count + 1 ∧
    h2.hmin = h.hmin.minQ p ∧ h2.hmax = h.hmax.maxQ p ∧
    valSum h2.bins = valSum h.bins + p ∧ wSum h2.bins = wSum h.bins + 1 := by
  simp only [add] at hok
  split at hok
  · cases hok
  next bins costs hins =>
  obtain ⟨hbins, -⟩ := insertWithCost_ok hins
  split at hok
  · -- over capacity: the merge path
    split at hok
    · cases hok
    next i hmi =>
    split at hok
    case isFalse => cases hok
    next hi1 =>
    split at hok
    · cases hok
    next hcnt =>
    split at hok
    · cases hok
    next costs2 hucm =>
    cases hok
    refine ⟨rfl, rfl, rfl, rfl, ?_, ?_⟩
    · show valSum (bins.take i ++ _ ++ bins.drop (i + 2)) = _
      rw [valSum, sum_map_splice2 _ bins i _ hi1]
      rw [List.getD_eq_getElem _ _ (show i < bins.length by omega),
        List.getD_eq_getElem _ _ hi1] at hcnt ⊢
      simp only [List.get_eq_getElem]
      rw [div_mul_cancel₀ _ hcnt]
      have hsum : (List.map (fun b => b.1 * b.2) bins).sum
          = p * 1 + (List.map (fun b => b.1 * b.2) h.bins).sum := by
        rw [hbins]; exact sum_map_pyInsert _ _ _ _
      rw [hsum]
      unfold valSum
      ring
    · show wSum (bins.take i ++ _ ++ bins.drop (i + 2)) = _
      rw [wSum, sum_map_splice2 _ bins i _ hi1]
      rw [List.getD_eq_getElem _ _ (show i < bins.length by omega),
        List.getD_eq_getElem _ _ hi1]
      simp only [List.get_eq_getElem]
      have hsum : (List.map (fun b => b.2) bins).sum
          = 1 + (List.map (fun b => b.2) h.bins).sum := by
        rw [hbins]; exact sum_map_pyInsert _ _ _ _
      rw [hsum]
      unfold wSum
      ring
  · -- within capacity: a plain insertion
    cases hok
    rw [hbins]
    refine ⟨rfl, rfl, rfl, rfl, ?_, ?_⟩
    · rw [valSum, sum_map_pyInsert]; unfold valSum; ring
    · rw [wSum, sum_map_pyInsert]; unfold wSum; ring

/-- Scalar summaries accumulated along a whole successful `add` chain. -/
lemma addList_ok {ps : List ℚ} {h s : ApproximateHistogram}
    (hok : addList h ps = .ok s) :
    s.maxBins = h.maxBins ∧ s.count = h.count + ps.length ∧
    s.hmin = ps.foldl XRat.minQ h.hmin ∧ s.hmax = ps.foldl XRat.maxQ h.hmax ∧
    valSum s.bins = valSum h.bins + ps.sum ∧ wSum s.bins = wSum h.bins + ps.length := by
  induction ps generalizing h with
  | nil => cases hok; simp
  | cons p ps ih =>
    unfold addList at hok
    cases hadd : add h p with
    | error e => rw [hadd] at hok; cases hok
    | ok h2 =>
      rw [hadd] at hok
      obtain ⟨hmb, hct, hmn, hmx, hvs, hws⟩ := add_ok_step hadd
      obtain ⟨ihmb, ihct, ihmn, ihmx, ihvs, ihws⟩ := ih hok
      refine ⟨by rw [ihmb, hmb], by rw [ihct, hct]; simp [List.length_cons]; omega, ?_, ?_, ?_, ?_⟩
      · rw [ihmn, hmn]; rfl
      · rw [ihmx, hmx]; rfl
      · rw [ihvs, hvs]; simp; ring
      · rw [ihws, hws]; simp; ring

/-! ### Index views of the gap list and of insertion and splicing -/

lemma gaps_length (l : List (ℚ × ℚ)) : (gaps l).length = l.length - 1 := by
  induction l with
  | nil => rfl
  | cons a t ih =>
    cases t with
    | nil => rfl
    | cons b t2 =>
      show ((b.1 - a.1) :: gaps (b :: t2)).length = (a :: b :: t2).length - 1
      rw [List.length_cons, ih]
      simp only [List.length_cons]
      omega

lemma gaps_get (l : List (ℚ × ℚ)) (i : ℕ) (h : i + 1 < l.length)
    (hb : i < (gaps l).length) :
    (gaps l).get ⟨i, hb⟩ = (l.get ⟨i + 1, h⟩).1 - (l.get ⟨i, by omega⟩).1 := by
  induction l generalizing i with
  | nil => simp at h
  | cons a t ih =>
    cases t with
    | nil => simp at h
    | cons b t2 =>
      cases i with
      | zero => rfl
      | succ i2 =>
        have h2 : i2 + 1 < (b :: t2).length := by
          simp only [List.length_cons] at h ⊢
          omega
        have hb2 : i2 < (gaps (b :: t2)).length := by
          rw [gaps_length] at hb ⊢
          simp only [List.length_cons] at hb ⊢
          omega
        exact ih i2 h2 hb2

lemma pyInsert_get_lt {α : Type} (n : ℕ) (a : α) (l : List α) (j : ℕ)
    (hj : j < n) (hjl : j < l.length) (hb : j < (pyInsert n a l).length) :
    (pyInsert n a l).get ⟨j, hb⟩ = l.get ⟨j, hjl⟩ := by
  have hlt : j < (l.take n).length := by
    simp only [List.length_take]
    omega
  simp only [pyInsert, List.get_eq_getElem, List.getElem_append]
  rw [dif_pos hlt]
  exact List.getElem_take l

lemma pyInsert_get_self {α : Type} (n : ℕ) (a : α) (l : List α)
    (hn : n ≤ l.length) (hb : n < (pyInsert n a l).length) :
    (pyInsert n a l).get ⟨n, hb⟩ = a := by
  have hlen : (l.take n).length = n := by
    simp only [List.length_take]
    omega
  simp only [pyInsert, List.get_eq_getElem, List.getElem_append]
  rw [dif_neg (by omega)]
  have h0 : n - (l.take n).length = 0 := by omega
  simp only [h0]
  rfl

lemma pyInsert_get_gt {α : Type} (n : ℕ) (a : α) (l : List α) (j : ℕ)
    (hn : n ≤ l.length) (hj : n < j) (hjl : j - 1 < l.length)
    (hb : j < (pyInsert n a l).length) :
    (pyInsert n a l).get ⟨j, hb⟩ = l.get ⟨j - 1, hjl⟩ := by
  have hlen : (l.take n).length = n := by
    simp only [List.length_take]
    omega
  simp only [pyInsert, List.get_eq_getElem, List.getElem_append]
  rw [dif_neg (by omega)]
  have h1 : j - (l.take n).length = (j - n - 1) + 1 := by omega
  simp only [h1]
  rw [List.getElem_cons_succ, List.getElem_drop]
  simp only [show n + (j - n - 1) = j - 1 from by omega]

lemma splice2_get_lt {α : Type} (l : List α) (i : ℕ) (v : α) (j : ℕ)
    (hj : j < i) (hjl : j < l.length)
    (hb : j < (l.take i ++ [v] ++ l.drop (i + 2)).length) :
    (l.take i ++ [v] ++ l.drop (i + 2)).get ⟨j, hb⟩ = l.get ⟨j, hjl⟩ := by
  have hlt2 : j < (l.take i).length := by
    simp only [List.length_take]
    omega
  have hlt1 : j < (l.take i ++ [v]).length := by
    simp only [List.length_append, List.length_cons, List.length_nil]
    omega
  simp only [List.get_eq_getElem, List.getElem_append]
  rw [dif_pos hlt1, dif_pos hlt2]
  exact List.getElem_take l

lemma splice2_get_self {α : Type} (l : List α) (i : ℕ) (v : α)
    (hi : i ≤ l.length)
    (hb : i < (l.take i ++ [v] ++ l.drop (i + 2)).length) :
    (l.take i ++ [v] ++ l.drop (i + 2)).get ⟨i, hb⟩ = v := by
  have hlen : (l.take i).length = i := by
    simp only [List.length_take]
    omega
  have hlt1 : i < (l.take i ++ [v]).length := by
    simp only [List.length_append, List.length_take, List.length_cons, List.length_nil]
    omega
  simp only [List.get_eq_getElem, List.getElem_append]
  rw [dif_pos hlt1, dif_neg (by omega)]
  have h0 : i - (l.take i).length = 0 := by omega
  simp only [h0]
  rfl

lemma splice2_get_gt {α : Type} (l : List α) (i : ℕ) (v : α) (j : ℕ)
    (hi : i + 1 < l.length) (hj : i < j) (hjl : j + 1 < l.length)
    (hb : j < (l.take i ++ [v] ++ l.drop (i + 2)).length) :
    (l.take i ++ [v] ++ l.drop (i + 2)).get ⟨j, hb⟩ = l.get ⟨j + 1, hjl⟩ := by
  have hlen : (l.take i).length = i := by
    simp only [List.length_take]
    omega
  have hlen2 : (l.take i ++ [v]).length = i + 1 := by
    simp only [List.length_append, List.length_take, List.length_cons, List.length_nil]
    omega
  simp only [List.get_eq_getElem, List.getElem_append]
  rw [dif_neg (by omega)]
  simp only [hlen2]
  rw [List.getElem_drop]
  simp only [show i + 2 + (j - (i + 1)) = j + 1 from by omega]

lemma get_idx_congr {α : Type} (l : List α) {i j : ℕ} (h : i = j) {hi : i < l.length} :
    l.get ⟨i, hi⟩ = l.get ⟨j, h ▸ hi⟩ := by
  subst h
  rfl

set_option maxHeartbeats 2000000 in
lemma updateCosts_gaps (l : List (ℚ × ℚ)) (x : ℚ × ℚ) (i : ℕ) (hi : i ≤ l.length) :
    updateCosts (gaps l) (pyInsert i x l) i x = .ok (gaps (pyInsert i x l)) := by
  rcases Nat.eq_zero_or_pos i with hz | hpos
  · subst hz
    cases l with
    | nil => rfl
    | cons a t =>
      show updateCosts (gaps (a :: t)) (x :: a :: t) 0 x = .ok (gaps (x :: a :: t))
      rw [updateCosts, if_neg (by omega), if_pos (by simp)]
      rfl
  · have hlen1 : 1 ≤ l.length := by omega
    rw [updateCosts, if_pos hpos, if_pos (by rw [length_pyInsert]; omega)]
    have hm1 : ((pyInsert i x l).getD (i - 1) (0, 0)).1 = (l.get ⟨i - 1, by omega⟩).1 := by
      rw [List.getD_eq_getElem _ _ (by rw [length_pyInsert]; omega)]
      exact congrArg Prod.fst (pyInsert_get_lt i x l (i - 1) (by omega) (by omega)
        (by rw [length_pyInsert]; omega))
    rw [hm1]
    have hc1len : (pyInsert (i - 1) (x.1 - (l.get ⟨i - 1, by omega⟩).1) (gaps l)).length
        = l.length := by
      rw [length_pyInsert, gaps_length]
      omega
    by_cases hiL : i < l.length
    · rw [if_pos (by rw [hc1len]; omega), if_pos (by rw [length_pyInsert]; omega)]
      have hp1 : ((pyInsert i x l).getD (i + 1) (0, 0)).1 = (l.get ⟨i, hiL⟩).1 := by
        rw [List.getD_eq_getElem _ _ (by rw [length_pyInsert]; omega)]
        exact congrArg Prod.fst (pyInsert_get_gt i x l (i + 1) (by omega) (by omega)
          (by omega) (by rw [length_pyInsert]; omega))
      rw [hp1]
      congr 1
      apply List.ext_getElem
      · rw [List.length_set, hc1len, gaps_length, length_pyInsert]
        omega
      · intro n h1 h2
        have hnL : n < l.length := by
          rw [List.length_set, hc1len] at h1
          exact h1
        have hR : (gaps (pyInsert i x l))[n]
            = ((pyInsert i x l).get ⟨n + 1, by rw [length_pyInsert]; omega⟩).1
              - ((pyInsert i x l).get ⟨n, by rw [length_pyInsert]; omega⟩).1 :=
          gaps_get _ n (by rw [length_pyInsert]; omega) h2
        rw [hR, List.getElem_set]
        rcases Nat.lt_trichotomy n (i - 1) with hlt | heq | hgt
        · -- untouched low gap
          rw [if_neg (by omega)]
          have hc : (pyInsert (i - 1) (x.1 - (l.get ⟨i - 1, by omega⟩).1) (gaps l))[n]
              = (gaps l).get ⟨n, by rw [gaps_length]; omega⟩ :=
            pyInsert_get_lt (i - 1) _ (gaps l) n hlt (by rw [gaps_length]; omega)
              (by rw [hc1len]; omega)
          rw [hc, gaps_get l n (by omega) (by rw [gaps_length]; omega)]
          rw [pyInsert_get_lt i x l (n + 1) (by omega) (by omega) (by rw [length_pyInsert]; omega)]
          rw [pyInsert_get_lt i x l n (by omega) (by omega) (by rw [length_pyInsert]; omega)]
        · -- the freshly inserted gap
          rw [if_neg (by omega)]
          have hc : (pyInsert (i - 1) (x.1 - (l.get ⟨i - 1, by omega⟩).1) (gaps l))[n]
              = x.1 - (l.get ⟨i - 1, by omega⟩).1 := by
            simp only [heq]
            exact pyInsert_get_self (i - 1) _ (gaps l) (by rw [gaps_length]; omega)
              (by rw [hc1len]; omega)
          rw [hc]
          have hA : (pyInsert i x l).get ⟨n + 1, by rw [length_pyInsert]; omega⟩ = x := by
            have e : n + 1 = i := by omega
            rw [get_idx_congr _ e]
            exact pyInsert_get_self i x l (by omega) (by rw [length_pyInsert]; omega)
          have hB : (pyInsert i x l).get ⟨n, by rw [length_pyInsert]; omega⟩
              = l.get ⟨i - 1, by omega⟩ := by
            have e := pyInsert_get_lt i x l n (by omega) (by omega)
              (by rw [length_pyInsert]; omega)
            rw [e, get_idx_congr l (show n = i - 1 from by omega)]
          rw [hA, hB]
        · -- n is at or above the insertion point
          rcases Nat.lt_trichotomy n i with hlt2 | heq2 | hgt2
          · omega
          · -- the recomputed right gap
            rw [if_pos heq2.symm]
            have hA : (pyInsert i x l).get ⟨n + 1, by rw [length_pyInsert]; omega⟩
                = l.get ⟨i, hiL⟩ := by
              have e := pyInsert_get_gt i x l (n + 1) (by omega) (by omega)
                (by omega) (by rw [length_pyInsert]; omega)
              rw [e, get_idx_congr l (show n + 1 - 1 = i from by omega)]
            have hB : (pyInsert i x l).get ⟨n, by rw [length_pyInsert]; omega⟩ = x := by
              rw [get_idx_congr _ heq2]
              exact pyInsert_get_self i x l (by omega) (by rw [length_pyInsert]; omega)
            rw [hA, hB]
          · -- untouched high gap, shifted by one
            rw [if_neg (by omega)]
            have hc : (pyInsert (i - 1) (x.1 - (l.get ⟨i - 1, by omega⟩).1) (gaps l))[n]
                = (gaps l).get ⟨n - 1, by rw [gaps_length]; omega⟩ :=
              pyInsert_get_gt (i - 1) _ (gaps l) n (by rw [gaps_length]; omega) (by omega)
                (by rw [gaps_length]; omega) (by rw [hc1len]; omega)
            rw [hc, gaps_get l (n - 1) (by omega) (by rw [gaps_length]; omega)]
            have hA : (pyInsert i x l).get ⟨n + 1, by rw [length_pyInsert]; omega⟩
                = l.get ⟨n, hnL⟩ := by
              have e := pyInsert_get_gt i x l (n + 1) (by omega) (by omega)
                (by omega) (by rw [length_pyInsert]; omega)
              rw [e, get_idx_congr l (show n + 1 - 1 = n from by omega)]
            have hB : (pyInsert i x l).get ⟨n, by rw [length_pyInsert]; omega⟩
                = l.get ⟨n - 1, by omega⟩ := by
              exact pyInsert_get_gt i x l n (by omega) (by omega) (by omega)
                (by rw [length_pyInsert]; omega)
            rw [hA, hB, get_idx_congr l (show n - 1 + 1 = n from by omega)]
    · -- the point was appended at the very end: no right gap to fix
      rw [if_neg (by rw [hc1len]; omega)]
      have hiL2 : i = l.length := by omega
      congr 1
      apply List.ext_getElem
      · rw [hc1len, gaps_length, length_pyInsert]
        omega
      · intro n h1 h2
        have hnL : n < l.length := by
          rw [hc1len] at h1
          exact h1
        have hR : (gaps (pyInsert i x l))[n]
            = ((pyInsert i x l).get ⟨n + 1, by rw [length_pyInsert]; omega⟩).1
              - ((pyInsert i x l).get ⟨n, by rw [length_pyInsert]; omega⟩).1 :=
          gaps_get _ n (by rw [length_pyInsert]; omega) h2
        rw [hR]
        rcases Nat.lt_trichotomy n (i - 1) with hlt | heq | hgt
        · have hc : (pyInsert (i - 1) (x.1 - (l.get ⟨i - 1, by omega⟩).1) (gaps l))[n]
              = (gaps l).get ⟨n, by rw [gaps_length]; omega⟩ :=
            pyInsert_get_lt (i - 1) _ (gaps l) n hlt (by rw [gaps_length]; omega)
              (by rw [hc1len]; omega)
          rw [hc, gaps_get l n (by omega) (by rw [gaps_length]; omega)]
          rw [pyInsert_get_lt i x l (n + 1) (by omega) (by omega) (by rw [length_pyInsert]; omega)]
          rw [pyInsert_get_lt i x l n (by omega) (by omega) (by rw [length_pyInsert]; omega)]
        · have hc : (pyInsert (i - 1) (x.1 - (l.get ⟨i - 1, by omega⟩).1) (gaps l))[n]
              = x.1 - (l.get ⟨i - 1, by omega⟩).1 := by
            simp only [heq]
            exact pyInsert_get_self (i - 1) _ (gaps l) (by rw [gaps_length]; omega)
              (by rw [hc1len]; omega)
          rw [hc]
          have hA : (pyInsert i x l).get ⟨n + 1, by rw [length_pyInsert]; omega⟩ = x := by
            rw [get_idx_congr _ (show n + 1 = i from by omega)]
            exact pyInsert_get_self i x l (by omega) (by rw [length_pyInsert]; omega)
          have hB : (pyInsert i x l).get ⟨n, by rw [length_pyInsert]; omega⟩
              = l.get ⟨i - 1, by omega⟩ := by
            have e := pyInsert_get_lt i x l n (by omega) (by omega)
              (by rw [length_pyInsert]; omega)
            rw [e, get_idx_congr l (show n = i - 1 from by omega)]
          rw [hA, hB]
        · omega

lemma take_get {α : Type} (l : List α) (m k : ℕ) (hb : k < (l.take m).length) :
    (l.take m).get ⟨k, hb⟩ = l.get ⟨k, by simp only [List.length_take] at hb; omega⟩ := by
  simp only [List.get_eq_getElem]
  exact List.getElem_take l

/-- Splitting the gap list across an append whose right part is nonempty. -/
lemma gaps_append_cons : ∀ (X : List (ℚ × ℚ)) (hX : X ≠ []) (y : ℚ × ℚ) (Y : List (ℚ × ℚ)),
    gaps (X ++ y :: Y) = gaps X ++ (y.1 - (X.getLast hX).1) :: gaps (y :: Y)
  | [], hX, _, _ => absurd rfl hX
  | [a], _, y, Y => by
    rw [List.getLast_singleton]
    rfl
  | a :: b :: t2, _, y, Y => by
    have ih := gaps_append_cons (b :: t2) (by simp) y Y
    show gaps (a :: ((b :: t2) ++ y :: Y)) = _
    rw [show gaps (a :: ((b :: t2) ++ y :: Y))
        = (b.1 - a.1) :: gaps ((b :: t2) ++ y :: Y) from rfl]
    rw [ih, List.getLast_cons (by simp : (b :: t2) ≠ [])]
    rfl

lemma take_getLast (l : List (ℚ × ℚ)) (i : ℕ) (h0 : 0 < i) (hle : i ≤ l.length)
    (hne : l.take i ≠ []) :
    (l.take i).getLast hne = l.get ⟨i - 1, by omega⟩ := by
  have hlen : (l.take i).length = i := by
    simp only [List.length_take]
    omega
  rw [List.getLast_eq_getElem]
  rw [show (l.take i)[(l.take i).length - 1] = (l.take i).get ⟨(l.take i).length - 1,
    by omega⟩ from rfl]
  rw [take_get, get_idx_congr l (show (l.take i).length - 1 = i - 1 from by rw [hlen])]

lemma take_ne_nil (l : List (ℚ × ℚ)) (i : ℕ) (h0 : 0 < i) (hle : i ≤ l.length) :
    l.take i ≠ [] := by
  intro hc
  have := congrArg List.length hc
  simp only [List.length_take, List.length_nil] at this
  omega

/-- Taking a prefix of the gap list is the gap list of a prefix. -/
lemma gaps_take : ∀ (k : ℕ) (l : List (ℚ × ℚ)), (gaps l).take k = gaps (l.take (k + 1))
  | 0, l => by
    cases l with
    | nil => rfl
    | cons a t => cases t <;> rfl
  | k + 1, l => by
    cases l with
    | nil => rfl
    | cons a t =>
      cases t with
      | nil => rfl
      | cons b t2 =>
        show ((b.1 - a.1) :: gaps (b :: t2)).take (k + 1) = gaps (a :: b :: t2.take k)
        rw [List.take_succ_cons]
        rw [gaps_take k (b :: t2)]
        rfl

/-- Dropping a prefix of the gap list is the gap list of a suffix. -/
lemma gaps_drop : ∀ (k : ℕ) (l : List (ℚ × ℚ)), (gaps l).drop k = gaps (l.drop k)
  | 0, l => by simp
  | k + 1, l => by
    cases l with
    | nil => rfl
    | cons a t =>
      cases t with
      | nil =>
        show ([] : List ℚ).drop (k + 1) = gaps ([a].drop (k + 1))
        rw [List.drop_nil, List.drop_eq_nil_of_le (by simp)]
        rfl
      | cons b t2 =>
        show ((b.1 - a.1) :: gaps (b :: t2)).drop (k + 1) = gaps ((b :: t2).drop k)
        rw [List.drop_succ_cons]
        exact gaps_drop k (b :: t2)

set_option maxHeartbeats 1000000 in
/-- The incremental cost update after a merge splice reproduces the gap
list of the new bins list (and raises nothing), provided the pre-merge
bins list has at least three entries. -/
lemma updateCostsForMerge_gaps (l : List (ℚ × ℚ)) (v : ℚ × ℚ) (i : ℕ)
    (hi : i + 1 < l.length) (hL3 : 2 < l.length) :
    updateCostsForMerge (gaps l) (l.take i ++ [v] ++ l.drop (i + 2)) i v
      = .ok (gaps (l.take i ++ [v] ++ l.drop (i + 2))) := by
  have hL1 : (gaps l).length = l.length - 1 := gaps_length l
  have hsplen : (l.take i ++ [v] ++ l.drop (i + 2)).length = l.length - 1 :=
    length_splice2 l i v hi
  by_cases hint : 0 < i ∧ i < (gaps l).length - 1
  · -- interior merge
    have hi2 : i + 2 < l.length := by omega
    have hTne : l.take i ≠ [] := take_ne_nil l i (by omega) (by omega)
    have hlast : (l.take i).getLast hTne = l.get ⟨i - 1, by omega⟩ :=
      take_getLast l i (by omega) (by omega) hTne
    have hdrop : l.drop (i + 2) = l.get ⟨i + 2, hi2⟩ :: l.drop (i + 3) :=
      List.drop_eq_getElem_cons hi2
    rw [updateCostsForMerge, if_pos hint,
      if_pos ⟨by rw [hsplen]; omega, by rw [hsplen]; omega⟩]
    have hgm1 : ((l.take i ++ [v] ++ l.drop (i + 2)).getD (i - 1) (0, 0)).1
        = (l.get ⟨i - 1, by omega⟩).1 := by
      rw [List.getD_eq_getElem _ _ (by rw [hsplen]; omega)]
      exact congrArg Prod.fst (splice2_get_lt l i v (i - 1) (by omega) (by omega)
        (by rw [hsplen]; omega))
    have hgp1 : ((l.take i ++ [v] ++ l.drop (i + 2)).getD (i + 1) (0, 0)).1
        = (l.get ⟨i + 2, hi2⟩).1 := by
      rw [List.getD_eq_getElem _ _ (by rw [hsplen]; omega)]
      exact congrArg Prod.fst (splice2_get_gt l i v (i + 1) hi (by omega) (by omega)
        (by rw [hsplen]; omega))
    rw [hgm1, hgp1]
    congr 1
    rw [show l.take i ++ [v] ++ l.drop (i + 2) = l.take i ++ v :: l.drop (i + 2) by simp]
    rw [gaps_take, show i - 1 + 1 = i from by omega, gaps_drop]
    rw [hdrop, gaps_append_cons _ hTne, hlast]
    simp only [List.cons_append, List.nil_append, List.append_assoc]
    rfl
  · by_cases hpos : 0 < i
    · -- merging the last two bins: i + 2 = l.length
      have hieq : i + 2 = l.length := by omega
      have hTne : l.take i ≠ [] := take_ne_nil l i (by omega) (by omega)
      have hlast : (l.take i).getLast hTne = l.get ⟨i - 1, by omega⟩ :=
        take_getLast l i (by omega) (by omega) hTne
      have hdropnil : l.drop (i + 2) = [] := List.drop_eq_nil_of_le (by omega)
      have hdrop1 : l.drop (i + 1) = [l.get ⟨i + 1, hi⟩] := by
        rw [List.drop_eq_getElem_cons hi, hdropnil]
        rfl
      rw [updateCostsForMerge, if_neg hint, if_pos hpos, if_pos (by rw [hsplen]; omega)]
      have hgm1 : ((l.take i ++ [v] ++ l.drop (i + 2)).getD (i - 1) (0, 0)).1
          = (l.get ⟨i - 1, by omega⟩).1 := by
        rw [List.getD_eq_getElem _ _ (by rw [hsplen]; omega)]
        exact congrArg Prod.fst (splice2_get_lt l i v (i - 1) (by omega) (by omega)
          (by rw [hsplen]; omega))
      rw [hgm1]
      congr 1
      rw [show l.take i ++ [v] ++ l.drop (i + 2) = l.take i ++ v :: l.drop (i + 2) by simp]
      rw [gaps_take, show i - 1 + 1 = i from by omega, gaps_drop]
      rw [hdropnil, hdrop1, gaps_append_cons _ hTne, hlast]
      simp only [List.cons_append, List.nil_append, List.append_assoc]
      rfl
    · -- merging the first two bins: i = 0
      have hz : i = 0 := by omega
      have hi2 : i + 2 < l.length := by omega
      have hdrop : l.drop (i + 2) = l.get ⟨i + 2, hi2⟩ :: l.drop (i + 3) :=
        List.drop_eq_getElem_cons hi2
      have hTnil : l.take i = ([] : List (ℚ × ℚ)) := by
        rw [hz]
        rfl
      have hgTnil : (gaps l).take i = ([] : List ℚ) := by
        rw [hz]
        rfl
      rw [updateCostsForMerge, if_neg hint, if_neg hpos, if_pos (by rw [hsplen]; omega)]
      have hgp1 : ((l.take i ++ [v] ++ l.drop (i + 2)).getD (i + 1) (0, 0)).1
          = (l.get ⟨i + 2, hi2⟩).1 := by
        rw [List.getD_eq_getElem _ _ (by rw [hsplen]; omega)]
        exact congrArg Prod.fst (splice2_get_gt l i v (i + 1) (by omega) (by omega)
          (by omega) (by rw [hsplen]; omega))
      rw [hgp1]
      congr 1
      rw [show l.take i ++ [v] ++ l.drop (i + 2) = l.take i ++ v :: l.drop (i + 2) by simp]
      rw [gaps_drop, hTnil, hgTnil]
      rw [hdrop]
      simp only [List.cons_append, List.nil_append, List.append_assoc]
      rfl

/-! ### Correctness of the bisection loop -/

/-- Probe facts at the returned index of the bisection loop, for any list
and comparison: the result lies in `[lo, hi]`, the element just below it
(when inside the range) compared not-less, and the element at it (when
inside the range) compared less. -/
lemma bisectRightAux_spec {α : Type} (ltb : α → α → Bool) (l : List α) (x : α)
    (fuel : ℕ) :
    ∀ lo hi : ℕ, hi - lo ≤ fuel → lo ≤ hi →
      lo ≤ bisectRightAux ltb l x fuel lo hi ∧
      bisectRightAux ltb l x fuel lo hi ≤ hi ∧
      (lo < bisectRightAux ltb l x fuel lo hi →
        ltb x (l.getD (bisectRightAux ltb l x fuel lo hi - 1) x) = false) ∧
      (bisectRightAux ltb l x fuel lo hi < hi →
        ltb x (l.getD (bisectRightAux ltb l x fuel lo hi) x) = true) := by
  induction fuel with
  | zero =>
    intro lo hi hfuel hlo
    have : lo = hi := by omega
    subst this
    simp [bisectRightAux]
  | succ fuel ih =>
    intro lo hi hfuel hlo
    by_cases hlt : lo < hi
    · rw [show bisectRightAux ltb l x (fuel + 1) lo hi
          = if lo < hi then
              if ltb x (l.getD ((lo + hi) / 2) x) then bisectRightAux ltb l x fuel lo ((lo + hi) / 2)
              else bisectRightAux ltb l x fuel ((lo + hi) / 2 + 1) hi
            else lo from rfl]
      rw [if_pos hlt]
      by_cases hp : ltb x (l.getD ((lo + hi) / 2) x) = true
      · rw [if_pos hp]
        obtain ⟨h1, h2, h3, h4⟩ := ih lo ((lo + hi) / 2) (by omega) (by omega)
        refine ⟨h1, by omega, h3, fun hr => ?_⟩
        by_cases hm : bisectRightAux ltb l x fuel lo ((lo + hi) / 2) < (lo + hi) / 2
        · exact h4 hm
        · have : bisectRightAux ltb l x fuel lo ((lo + hi) / 2) = (lo + hi) / 2 := by omega
          rw [this]
          exact hp
      · rw [if_neg hp]
        obtain ⟨h1, h2, h3, h4⟩ := ih ((lo + hi) / 2 + 1) hi (by omega) (by omega)
        refine ⟨by omega, h2, fun hr => ?_, h4⟩
        by_cases hm : (lo + hi) / 2 + 1 < bisectRightAux ltb l x fuel ((lo + hi) / 2 + 1) hi
        · exact h3 hm
        · have : bisectRightAux ltb l x fuel ((lo + hi) / 2 + 1) hi = (lo + hi) / 2 + 1 := by
            omega
          rw [this]
          simpa using hp
    · have : lo = hi := by omega
      subst this
      simp [bisectRightAux]

/-- Probe facts for the full-range `bisect_right`. -/
lemma bisectRight_spec {α : Type} (ltb : α → α → Bool) (l : List α) (x : α) :
    bisectRight ltb l x ≤ l.length ∧
    (0 < bisectRight ltb l x →
      ltb x (l.getD (bisectRight ltb l x - 1) x) = false) ∧
    (bisectRight ltb l x < l.length →
      ltb x (l.getD (bisectRight ltb l x) x) = true) := by
  obtain ⟨-, h2, h3, h4⟩ :=
    bisectRightAux_spec ltb l x l.length 0 l.length (by omega) (by omega)
  exact ⟨h2, fun h => h3 h, h4⟩

/-- On a list along which the predicate `x < ·` is upward closed (as it is
for any sorted list), `bisect_right` returns the number of elements that
are not greater than `x`. -/
lemma bisectRight_count {α : Type} (ltb : α → α → Bool) (l : List α) (x : α)
    (hmono : ∀ j k : ℕ, j ≤ k → k < l.length →
      ltb x (l.getD j x) = true → ltb x (l.getD k x) = true) :
    bisectRight ltb l x = l.countP (fun a => !ltb x a) := by
  obtain ⟨hle, hbelow, hat⟩ := bisectRight_spec ltb l x
  set r := bisectRight ltb l x with hr
  have hsplit : l = l.take r ++ l.drop r := (List.take_append_drop r l).symm
  rw [hsplit, List.countP_append]
  have htake : (l.take r).countP (fun a => !ltb x a) = (l.take r).length := by
    rw [List.countP_eq_length]
    intro a ha
    obtain ⟨j, hj, hja⟩ := List.mem_iff_getElem.mp ha
    have hjr : j < r := by
      have := hj
      simp [List.length_take] at this
      omega
    have hjl : j < l.length := by
      have := hj
      simp [List.length_take] at this
      omega
    have hja2 : a = l.getD j x := by
      rw [List.getD_eq_getElem _ _ hjl, ← hja, List.getElem_take]
    by_contra hcon
    have htrue : ltb x (l.getD j x) = true := by
      rw [hja2] at hcon
      simpa using hcon
    have := hmono j (r - 1) (by omega) (by omega) htrue
    rw [hbelow (by omega)] at this
    cases this
  have hdrop : (l.drop r).countP (fun a => !ltb x a) = 0 := by
    rw [List.countP_eq_zero]
    intro a ha
    obtain ⟨j, hj, hja⟩ := List.mem_iff_getElem.mp ha
    have hjl : r + j < l.length := by
      have := hj
      simp [List.length_drop] at this
      omega
    have hja2 : a = l.getD (r + j) x := by
      rw [List.getD_eq_getElem _ _ hjl, ← hja, List.getElem_drop]
    have htrue : ltb x (l.getD (r + j) x) = true := by
      refine hmono r (r + j) (by omega) hjl ?_
      exact hat (by omega)
    rw [hja2, htrue]
    simp
  rw [htake, hdrop, List.length_take]
  omega

lemma pairLt_iff {a b : ℚ × ℚ} :
    pairLt a b = true ↔ a.1 < b.1 ∨ (a.1 = b.1 ∧ a.2 < b.2) := by
  simp [pairLt]

lemma pairLt_of_lt_of_le {a b c : ℚ × ℚ} (h1 : pairLt a b = true) (h2 : pairLeP b c) :
    pairLt a c = true := by
  rw [pairLt_iff] at h1 ⊢
  rcases h1 with h1 | ⟨h1e, h1w⟩ <;> rcases h2 with h2 | ⟨h2e, h2w⟩
  · exact Or.inl (h1.trans h2)
  · exact Or.inl (h2e ▸ h1)
  · exact Or.inl (h1e ▸ h2)
  · exact Or.inr ⟨h1e.trans h2e, lt_of_lt_of_le h1w h2w⟩

/-! ### Running minimum and maximum -/

lemma foldl_minQ_fin (ps : List ℚ) :
    ∀ c : ℚ, ∃ a, ps.foldl XRat.minQ (.fin c) = .fin a ∧ (a = c ∨ a ∈ ps) ∧ a ≤ c ∧
      ∀ x ∈ ps, a ≤ x := by
  induction ps with
  | nil => exact fun c => ⟨c, rfl, Or.inl rfl, le_rfl, by simp⟩
  | cons p ps ih =>
    intro c
    by_cases hpc : p < c
    · obtain ⟨a, ha1, ha2, ha3, ha4⟩ := ih p
      refine ⟨a, ?_, ?_, by linarith, ?_⟩
      · rw [List.foldl_cons, show XRat.minQ (.fin c) p = .fin p by
          simp [XRat.minQ, XRat.ltX, hpc]]
        exact ha1
      · rcases ha2 with h | h
        · exact Or.inr (by simp [h])
        · exact Or.inr (by simp [h])
      · intro x hx
        rcases List.mem_cons.mp hx with h | h
        · rw [h]; exact ha3
        · exact ha4 x h
    · obtain ⟨a, ha1, ha2, ha3, ha4⟩ := ih c
      refine ⟨a, ?_, ?_, ha3, ?_⟩
      · rw [List.foldl_cons, show XRat.minQ (.fin c) p = .fin c by
          simp [XRat.minQ, XRat.ltX, hpc]]
        exact ha1
      · rcases ha2 with h | h
        · exact Or.inl h
        · exact Or.inr (by simp [h])
      · intro x hx
        rcases List.mem_cons.mp hx with h | h
        · rw [h]; push_neg at hpc; linarith
        · exact ha4 x h

lemma foldl_minQ_inf (ps : List ℚ) (hne : ps ≠ []) :
    ∃ a, ps.foldl XRat.minQ .inf = .fin a ∧ a ∈ ps ∧ ∀ x ∈ ps, a ≤ x := by
  cases ps with
  | nil => exact absurd rfl hne
  | cons p ps =>
    rw [List.foldl_cons, show XRat.minQ .inf p = .fin p from rfl]
    obtain ⟨a, ha1, ha2, ha3, ha4⟩ := foldl_minQ_fin ps p
    refine ⟨a, ha1, ?_, ?_⟩
    · rcases ha2 with h | h
      · exact List.mem_cons.mpr (Or.inl h)
      · exact List.mem_cons.mpr (Or.inr h)
    · intro x hx
      rcases List.mem_cons.mp hx with h | h
      · rw [h]; exact ha3
      · exact ha4 x h

lemma foldl_maxQ_fin (ps : List ℚ) :
    ∀ c : ℚ, ∃ a, ps.foldl XRat.maxQ (.fin c) = .fin a ∧ (a = c ∨ a ∈ ps) ∧ c ≤ a ∧
      ∀ x ∈ ps, x ≤ a := by
  induction ps with
  | nil => exact fun c => ⟨c, rfl, Or.inl rfl, le_rfl, by simp⟩
  | cons p ps ih =>
    intro c
    by_cases hpc : c < p
    · obtain ⟨a, ha1, ha2, ha3, ha4⟩ := ih p
      refine ⟨a, ?_, ?_, by linarith, ?_⟩
      · rw [List.foldl_cons, show XRat.maxQ (.fin c) p = .fin p by
          simp [XRat.maxQ, XRat.ltX, hpc]]
        exact ha1
      · rcases ha2 with h | h
        · exact Or.inr (by simp [h])
        · exact Or.inr (by simp [h])
      · intro x hx
        rcases List.mem_cons.mp hx with h | h
        · rw [h]; exact ha3
        · exact ha4 x h
    · obtain ⟨a, ha1, ha2, ha3, ha4⟩ := ih c
      refine ⟨a, ?_, ?_, ha3, ?_⟩
      · rw [List.foldl_cons, show XRat.maxQ (.fin c) p = .fin c by
          simp [XRat.maxQ, XRat.ltX, hpc]]
        exact ha1
      · rcases ha2 with h | h
        · exact Or.inl h
        · exact Or.inr (by simp [h])
      · intro x hx
        rcases List.mem_cons.mp hx with h | h
        · rw [h]; push_neg at hpc; linarith
        · exact ha4 x h

lemma foldl_maxQ_ninf (ps : List ℚ) (hne : ps ≠ []) :
    ∃ a, ps.foldl XRat.maxQ .ninf = .fin a ∧ a ∈ ps ∧ ∀ x ∈ ps, x ≤ a := by
  cases ps with
  | nil => exact absurd rfl hne
  | cons p ps =>
    rw [List.foldl_cons, show XRat.maxQ .ninf p = .fin p from rfl]
    obtain ⟨a, ha1, ha2, ha3, ha4⟩ := foldl_maxQ_fin ps p
    refine ⟨a, ha1, ?_, ?_⟩
    · rcases ha2 with h | h
      · exact List.mem_cons.mpr (Or.inl h)
      · exact List.mem_cons.mpr (Or.inr h)
    · intro x hx
      rcases List.mem_cons.mp hx with h | h
      · rw [h]; exact ha3
      · exact ha4 x h

lemma quantileList_singleton (h : ApproximateHistogram) (sums : List ℚ) (q : ℚ) :
    quantileList h sums [q] = match quantileOne h sums q with
      | .error e => .error e
      | .ok v => .ok [v] := by
  cases hq : quantileOne h sums q <;> simp [quantileList, hq]

/-! ### The maintained invariant and the uncompressed regime -/

lemma drop_get {α : Type} (l : List α) (m k : ℕ) (hb : k < (l.drop m).length) :
    (l.drop m).get ⟨k, hb⟩ = l.get ⟨m + k, by simp only [List.length_drop] at hb; omega⟩ := by
  simp only [List.get_eq_getElem]
  exact List.getElem_drop l

lemma sorted_fst_le {l : List (ℚ × ℚ)} (hl : l.Pairwise (fun a b => a.1 ≤ b.1))
    {j k : ℕ} (hjk : j ≤ k) (hk : k < l.length) :
    (l.get ⟨j, by omega⟩).1 ≤ (l.get ⟨k, hk⟩).1 := by
  rcases eq_or_lt_of_le hjk with rfl | hlt
  · exact le_rfl
  · exact List.pairwise_iff_get.mp hl ⟨j, by omega⟩ ⟨k, hk⟩ hlt

lemma pairLt_false_fst {x b : ℚ × ℚ} (h : pairLt x b = false) : b.1 ≤ x.1 := by
  by_contra hcon
  push_neg at hcon
  simp [pairLt, hcon] at h

lemma pairLt_true_fst {x b : ℚ × ℚ} (h : pairLt x b = true) : x.1 ≤ b.1 := by
  rw [pairLt_iff] at h
  rcases h with h | ⟨he, -⟩
  · exact le_of_lt h
  · exact le_of_eq he

lemma pairwise_pyInsert {le : ℚ × ℚ → ℚ × ℚ → Prop} (l : List (ℚ × ℚ)) (x : ℚ × ℚ) (r : ℕ)
    (hr : r ≤ l.length) (hl : l.Pairwise le)
    (hbefore : ∀ j (hj : j < r), le (l.get ⟨j, by omega⟩) x)
    (hafter : ∀ j (hj1 : r ≤ j) (hj2 : j < l.length), le x (l.get ⟨j, hj2⟩)) :
    (pyInsert r x l).Pairwise le := by
  unfold pyInsert
  rw [List.pairwise_append]
  refine ⟨hl.sublist (List.take_sublist r l), ?_, ?_⟩
  · rw [List.pairwise_cons]
    refine ⟨?_, hl.sublist (List.drop_sublist r l)⟩
    intro b hb
    obtain ⟨⟨k, hk⟩, hkb⟩ := List.mem_iff_get.mp hb
    rw [← hkb, drop_get]
    exact hafter (r + k) (by omega) (by simp only [List.length_drop] at hk; omega)
  · intro a ha b hb
    obtain ⟨⟨j, hj⟩, hja⟩ := List.mem_iff_get.mp ha
    have hjr : j < r := by
      simp only [List.length_take] at hj
      omega
    rcases List.mem_cons.mp hb with rfl | hb2
    · rw [← hja, take_get]
      exact hbefore j hjr
    · obtain ⟨⟨k, hk⟩, hkb⟩ := List.mem_iff_get.mp hb2
      rw [← hja, ← hkb, take_get, drop_get]
      refine List.pairwise_iff_get.mp hl ⟨j, by omega⟩
        ⟨r + k, by simp only [List.length_drop] at hk; omega⟩ ?_
      show j < r + k
      omega

lemma pairwise_splice2 {le : ℚ × ℚ → ℚ × ℚ → Prop} (l : List (ℚ × ℚ)) (i : ℕ) (v : ℚ × ℚ)
    (h : i + 1 < l.length) (hl : l.Pairwise le)
    (hv1 : ∀ j (hj : j < i), le (l.get ⟨j, by omega⟩) v)
    (hv2 : ∀ j (hj1 : i + 2 ≤ j) (hj2 : j < l.length), le v (l.get ⟨j, hj2⟩)) :
    (l.take i ++ [v] ++ l.drop (i + 2)).Pairwise le := by
  rw [List.append_assoc, List.singleton_append, List.pairwise_append]
  refine ⟨hl.sublist (List.take_sublist i l), ?_, ?_⟩
  · rw [List.pairwise_cons]
    refine ⟨?_, hl.sublist (List.drop_sublist (i + 2) l)⟩
    intro b hb
    obtain ⟨⟨k, hk⟩, hkb⟩ := List.mem_iff_get.mp hb
    rw [← hkb, drop_get]
    exact hv2 (i + 2 + k) (by omega) (by simp only [List.length_drop] at hk; omega)
  · intro a ha b hb
    obtain ⟨⟨j, hj⟩, hja⟩ := List.mem_iff_get.mp ha
    have hji : j < i := by
      simp only [List.length_take] at hj
      omega
    rcases List.mem_cons.mp hb with rfl | hb2
    · rw [← hja, take_get]
      exact hv1 j hji
    · obtain ⟨⟨k, hk⟩, hkb⟩ := List.mem_iff_get.mp hb2
      rw [← hja, ← hkb, take_get, drop_get]
      refine List.pairwise_iff_get.mp hl ⟨j, by omega⟩
        ⟨i + 2 + k, by simp only [List.length_drop] at hk; omega⟩ ?_
      show j < i + 2 + k
      omega

lemma median_between {q0 q1 k0 k1 : ℚ} (h01 : q0 ≤ q1) (hk0 : 0 < k0) (hk1 : 0 < k1) :
    q0 ≤ (q0 * k0 + q1 * k1) / (k0 + k1) ∧ (q0 * k0 + q1 * k1) / (k0 + k1) ≤ q1 := by
  have hs : (0 : ℚ) < k0 + k1 := by linarith
  constructor
  · rw [le_div_iff hs]
    nlinarith
  · rw [div_le_iff hs]
    nlinarith

lemma minIndex_lt_length {l : List ℚ} {i : ℕ} (h : minIndex l = .ok i) : i < l.length := by
  unfold minIndex at h
  cases hm : l.min? with
  | none => rw [hm] at h; cases h
  | some m =>
    rw [hm] at h
    cases h
    exact List.indexOf_lt_length.mpr (List.min?_mem min_choice hm)

set_option maxHeartbeats 1000000 in
lemma add_preserves_invariant {h : ApproximateHistogram} {p : ℚ} {h2 : ApproximateHistogram}
    (hm2 : 2 ≤ h.maxBins) (hinv : Invariant h) (hok : add h p = .ok h2) :
    Invariant h2 := by
  obtain ⟨hsort, hcost, hwpos, hlen⟩ := hinv
  simp only [add] at hok
  split at hok
  · cases hok
  next bins costs hins =>
  obtain ⟨hbins, hcosts⟩ := insertWithCost_ok hins
  obtain ⟨hr_le, hprobe1, hprobe2⟩ := bisectRight_spec pairLt h.bins (p, 1)
  have hblen : bins.length = h.bins.length + 1 := by
    rw [hbins, length_pyInsert]
  have hcosts2 : costs = gaps bins := by
    rw [hcost, updateCosts_gaps h.bins (p, 1) _ hr_le] at hcosts
    cases hcosts
    rw [hbins]
  have hsort2 : bins.Pairwise (fun a b => a.1 ≤ b.1) := by
    rw [hbins]
    refine pairwise_pyInsert h.bins (p, 1) _ hr_le hsort ?_ ?_
    · intro j hj
      show (h.bins.get ⟨j, _⟩).1 ≤ p
      have hb1 : bisectRight pairLt h.bins (p, 1) - 1 < h.bins.length := by omega
      have hp1 := hprobe1 (by omega)
      rw [List.getD_eq_getElem _ _ hb1] at hp1
      exact le_trans (sorted_fst_le hsort (show j ≤ bisectRight pairLt h.bins (p, 1) - 1
        from by omega) hb1) (pairLt_false_fst hp1)
    · intro j hj1 hj2
      show p ≤ (h.bins.get ⟨j, hj2⟩).1
      have hrlen : bisectRight pairLt h.bins (p, 1) < h.bins.length := by omega
      have hp2 := hprobe2 hrlen
      rw [List.getD_eq_getElem _ _ hrlen] at hp2
      exact le_trans (pairLt_true_fst hp2) (sorted_fst_le hsort hj1 hj2)
  have hwpos2 : ∀ b ∈ bins, 1 ≤ b.2 := by
    intro b hb
    rw [hbins] at hb
    rcases List.mem_cons.mp ((pyInsert_perm _ _ _).mem_iff.mp hb) with rfl | hb2
    · exact le_rfl
    · exact hwpos b hb2
  split at hok
  · -- over capacity: merge the cheapest adjacent pair
    rename_i hcap
    split at hok
    · cases hok
    next i hmi =>
    split at hok
    case isFalse => cases hok
    next hi1 =>
    split at hok
    · cases hok
    next hcnt =>
    split at hok
    · cases hok
    next costs2 hucm =>
    cases hok
    have hiL : i < bins.length := by omega
    have hq0 : bins.getD i (0, 0) = bins.get ⟨i, hiL⟩ := List.getD_eq_getElem _ _ hiL
    have hq1 : bins.getD (i + 1) (0, 0) = bins.get ⟨i + 1, hi1⟩ := List.getD_eq_getElem _ _ hi1
    have hk0 : (1 : ℚ) ≤ (bins.get ⟨i, hiL⟩).2 := hwpos2 _ (bins.get_mem i hiL)
    have hk1 : (1 : ℚ) ≤ (bins.get ⟨i + 1, hi1⟩).2 := hwpos2 _ (bins.get_mem (i + 1) hi1)
    have hq01 : (bins.get ⟨i, hiL⟩).1 ≤ (bins.get ⟨i + 1, hi1⟩).1 :=
      sorted_fst_le hsort2 (by omega) hi1
    obtain ⟨hmb1, hmb2⟩ := median_between hq01
      (show (0 : ℚ) < (bins.get ⟨i, hiL⟩).2 from by linarith)
      (show (0 : ℚ) < (bins.get ⟨i + 1, hi1⟩).2 from by linarith)
    have hlen3 : 2 < bins.length := by omega
    refine ⟨?_, ?_, ?_, ?_⟩
    · refine pairwise_splice2 bins i _ hi1 hsort2 ?_ ?_
      · intro j hj
        show (bins.get ⟨j, _⟩).1 ≤ _
        rw [hq0, hq1]
        exact le_trans (sorted_fst_le hsort2 (show j ≤ i from by omega) hiL) hmb1
      · intro j hj1 hj2
        show _ ≤ (bins.get ⟨j, hj2⟩).1
        rw [hq0, hq1]
        exact le_trans hmb2 (sorted_fst_le hsort2 (show i + 1 ≤ j from by omega) hj2)
    · show costs2 = _
      rw [hcosts2, updateCostsForMerge_gaps bins _ i hi1 hlen3] at hucm
      cases hucm
      rfl
    · intro b hb
      rcases List.mem_append.mp hb with hb1 | hb2
      · rcases List.mem_append.mp hb1 with hb3 | hb4
        · exact hwpos2 b (List.mem_of_mem_take hb3)
        · rw [List.mem_singleton.mp hb4]
          show (1 : ℚ) ≤ _
          rw [hq0, hq1]
          show (1 : ℚ) ≤ (bins.get ⟨i, hiL⟩).2 + (bins.get ⟨i + 1, hi1⟩).2
          linarith
      · exact hwpos2 b (List.mem_of_mem_drop hb2)
    · show ((bins.take i ++ _ ++ bins.drop (i + 2)).length : ℤ) ≤ h.maxBins
      rw [length_splice2 _ _ _ hi1]
      have he : bins.length - 1 = h.bins.length := by omega
      rw [he]
      exact hlen
  · -- within capacity: plain insertion
    rename_i hcap
    cases hok
    refine ⟨hsort2, hcosts2, hwpos2, ?_⟩
    show ((bins.length : ℤ)) ≤ h.maxBins
    omega

lemma emptyHist_invariant {m : ℤ} (hm : 0 ≤ m) : Invariant (emptyHist m) := by
  refine ⟨List.Pairwise.nil, rfl, ?_, ?_⟩
  · intro b hb; cases hb
  · simpa using hm

lemma addList_preserves_invariant {ps : List ℚ} {h s : ApproximateHistogram}
    (hm2 : 2 ≤ h.maxBins) (hinv : Invariant h) (hok : addList h ps = .ok s) :
    Invariant s := by
  induction ps generalizing h with
  | nil => cases hok; exact hinv
  | cons p ps ih =>
    unfold addList at hok
    cases hadd : add h p with
    | error e => rw [hadd] at hok; cases hok
    | ok h2 =>
      rw [hadd] at hok
      have hmb := (add_ok_step hadd).1
      exact ih (by rw [hmb]; exact hm2) (add_preserves_invariant hm2 hinv hadd) hok

lemma pyInsert_bisect_sorted {l : List (ℚ × ℚ)} (x : ℚ × ℚ)
    (hsort : l.Pairwise (fun a b => a.1 ≤ b.1)) :
    (pyInsert (bisectRight pairLt l x) x l).Pairwise (fun a b => a.1 ≤ b.1) := by
  obtain ⟨hr_le, hprobe1, hprobe2⟩ := bisectRight_spec pairLt l x
  refine pairwise_pyInsert l x _ hr_le hsort ?_ ?_
  · intro j hj
    show (l.get ⟨j, _⟩).1 ≤ x.1
    have hb1 : bisectRight pairLt l x - 1 < l.length := by omega
    have hp1 := hprobe1 (by omega)
    rw [List.getD_eq_getElem _ _ hb1] at hp1
    exact le_trans (sorted_fst_le hsort
      (show j ≤ bisectRight pairLt l x - 1 from by omega) hb1) (pairLt_false_fst hp1)
  · intro j hj1 hj2
    show x.1 ≤ (l.get ⟨j, hj2⟩).1
    have hrlen : bisectRight pairLt l x < l.length := by omega
    have hp2 := hprobe2 hrlen
    rw [List.getD_eq_getElem _ _ hrlen] at hp2
    exact le_trans (pairLt_true_fst hp2) (sorted_fst_le hsort hj1 hj2)

lemma add_no_merge {h s : ApproximateHistogram} {p : ℚ}
    (hcap : (h.bins.length : ℤ) < h.maxBins) (hok : add h p = .ok s) :
    s.bins = pyInsert (bisectRight pairLt h.bins (p, 1)) (p, 1) h.bins := by
  simp only [add] at hok
  split at hok
  · cases hok
  next bins costs hins =>
  obtain ⟨hbins, -⟩ := insertWithCost_ok hins
  split at hok
  · rename_i hover
    rw [hbins, length_pyInsert] at hover
    exfalso
    push_cast at hover
    omega
  · cases hok
    exact hbins

lemma addList_no_merge {ps : List ℚ} {h s : ApproximateHistogram}
    (hcap : (h.bins.length : ℤ) + ps.length ≤ h.maxBins)
    (hsort : h.bins.Pairwise (fun a b => a.1 ≤ b.1))
    (hok : addList h ps = .ok s) :
    List.Perm s.bins ((ps.map fun p => (p, 1)) ++ h.bins) ∧
    s.bins.Pairwise (fun a b => a.1 ≤ b.1) := by
  induction ps generalizing h with
  | nil =>
    cases hok
    exact ⟨by simp, hsort⟩
  | cons p ps ih =>
    unfold addList at hok
    cases hadd : add h p with
    | error e => rw [hadd] at hok; cases hok
    | ok h2 =>
      rw [hadd] at hok
      have hcap1 : (h.bins.length : ℤ) < h.maxBins := by
        simp only [List.length_cons] at hcap
        push_cast at hcap
        omega
      have hb2 := add_no_merge hcap1 hadd
      have hmb2 := (add_ok_step hadd).1
      have hsort2 : h2.bins.Pairwise (fun a b => a.1 ≤ b.1) := by
        rw [hb2]
        exact pyInsert_bisect_sorted (p, 1) hsort
      have hlen2 : h2.bins.length = h.bins.length + 1 := by
        rw [hb2, length_pyInsert]
      have hcap2 : (h2.bins.length : ℤ) + ps.length ≤ h2.maxBins := by
        rw [hlen2, hmb2]
        simp only [List.length_cons] at hcap
        push_cast at hcap ⊢
        omega
      obtain ⟨hperm, hsorts⟩ := ih hcap2 hsort2 hok
      refine ⟨?_, hsorts⟩
      have h1 : List.Perm h2.bins ((p, 1) :: h.bins) := by
        rw [hb2]
        exact pyInsert_perm _ _ _
      exact hperm.trans ((h1.append_left (ps.map fun p => (p, 1))).trans List.perm_middle)

lemma pairLeP_antisymm : ∀ a b : ℚ × ℚ, pairLeP a b → pairLeP b a → a = b := by
  rintro ⟨a1, a2⟩ ⟨b1, b2⟩ h1 h2
  rcases h1 with h1 | ⟨h1a, h1b⟩ <;> rcases h2 with h2 | ⟨h2a, h2b⟩
  · exact absurd (h1.trans h2) (lt_irrefl _)
  · exact absurd h1 (by rw [h2a]; exact lt_irrefl _)
  · exact absurd h2 (by rw [h1a]; exact lt_irrefl _)
  · simp only at h1a h1b h2a h2b
    subst h1a
    rw [le_antisymm h1b h2b]

lemma pairwise_pairLeP_of_ones {l : List (ℚ × ℚ)} (hs : l.Pairwise fun a b => a.1 ≤ b.1)
    (hw : ∀ b ∈ l, b.2 = 1) : l.Pairwise pairLeP := by
  refine List.Pairwise.imp_of_mem ?_ hs
  intro a b ha hb hab
  rcases lt_or_eq_of_le hab with h | h
  · exact Or.inl h
  · exact Or.inr ⟨h, by rw [hw a ha, hw b hb]⟩

lemma pairwise_pairLeP_map_ones {xs : List ℚ} (hs : xs.Pairwise (· ≤ ·)) :
    (xs.map fun p => (p, (1 : ℚ))).Pairwise pairLeP := by
  refine List.Pairwise.map _ ?_ hs
  intro a b hab
  rcases lt_or_eq_of_le hab with h | h
  · exact Or.inl h
  · exact Or.inr ⟨h, le_rfl⟩

/-- While the capacity is never exceeded, the bins are exactly the sorted
raw points, each as a singleton bin of weight 1. -/
lemma addList_uncompressed {m : ℤ} {ps : List ℚ} {s : ApproximateHistogram}
    (hcap : (ps.length : ℤ) ≤ m) (hok : addList (emptyHist m) ps = .ok s) :
    s.bins = (sortPoints ps).map fun p => (p, 1) := by
  obtain ⟨hperm, hsortb⟩ := addList_no_merge
      (by simpa [emptyHist] using hcap) List.Pairwise.nil hok
  rw [show (emptyHist m).bins = [] from rfl, List.append_nil] at hperm
  have hw1 : ∀ b ∈ s.bins, b.2 = 1 := by
    intro b hb
    obtain ⟨p, -, rfl⟩ := List.mem_map.mp (hperm.mem_iff.mp hb)
    rfl
  have hperm2 : List.Perm s.bins ((sortPoints ps).map fun p => (p, (1 : ℚ))) :=
    hperm.trans (((List.perm_insertionSort (· ≤ ·) ps).symm).map _)
  haveI : IsAntisymm (ℚ × ℚ) pairLeP := ⟨pairLeP_antisymm⟩
  exact List.eq_of_perm_of_sorted hperm2 (pairwise_pairLeP_of_ones hsortb hw1)
    (pairwise_pairLeP_map_ones (List.sorted_insertionSort (· ≤ ·) ps))

lemma sorted_le_get {xs : List ℚ} (hs : xs.Pairwise (· ≤ ·)) {j k : ℕ} (hjk : j ≤ k)
    (hk : k < xs.length) : xs.get ⟨j, by omega⟩ ≤ xs.get ⟨k, hk⟩ := by
  rcases eq_or_lt_of_le hjk with rfl | hlt
  · exact le_rfl
  · exact List.pairwise_iff_get.mp hs ⟨j, by omega⟩ ⟨k, hk⟩ hlt

lemma sorted_head_eq_min {xs : List ℚ} (hne : xs ≠ []) (hs : xs.Pairwise (· ≤ ·))
    {a : ℚ} (hmem : a ∈ xs) (hmin : ∀ x ∈ xs, a ≤ x) : xs.getD 0 0 = a := by
  have hlen : 0 < xs.length := List.length_pos.mpr hne
  rw [List.getD_eq_getElem _ _ hlen]
  obtain ⟨j, hj, rfl⟩ := List.mem_iff_getElem.mp hmem
  refine le_antisymm ?_ (hmin _ (List.getElem_mem hlen))
  exact sorted_le_get hs (Nat.zero_le j) hj

lemma sorted_last_eq_max {xs : List ℚ} (hne : xs ≠ []) (hs : xs.Pairwise (· ≤ ·))
    {a : ℚ} (hmem : a ∈ xs) (hmax : ∀ x ∈ xs, x ≤ a) : xs.getD (xs.length - 1) 0 = a := by
  have hlen : 0 < xs.length := List.length_pos.mpr hne
  have hb : xs.length - 1 < xs.length := by omega
  rw [List.getD_eq_getElem _ _ hb]
  obtain ⟨j, hj, rfl⟩ := List.mem_iff_getElem.mp hmem
  refine le_antisymm (hmax _ (List.getElem_mem hb)) ?_
  exact sorted_le_get hs (by omega) hb

lemma histSums_aux (xs : List ℚ) : ∀ a : ℚ,
    ((accumulateFrom a (((xs.map fun p => (p, (1 : ℚ)))).map fun b => b.2)).zip
        (xs.map fun p => (p, (1 : ℚ)))).map
      (fun xb => xb.1 - (if 1 < xb.2.2 then xb.2.2 / 2 else 0))
      = (List.range xs.length).map fun k : ℕ => a + (k : ℚ) + 1 := by
  induction xs with
  | nil => intro a; rfl
  | cons x xs ih =>
    intro a
    simp only [List.map_cons, accumulateFrom, List.zip_cons_cons, List.length_cons]
    rw [ih (a + 1), List.range_succ_eq_map, List.map_cons, List.map_map]
    congr 1
    · norm_num
    · refine List.map_congr_left ?_
      intro k hk
      simp only [Function.comp]
      push_cast
      ring

/-- On an uncompressed histogram every weight is 1, so the prefix-sum list
of `quantile()` is exactly `[1, 2, ..., N]`. -/
lemma histSums_ones (xs : List ℚ) :
    histSums (xs.map fun p => (p, (1 : ℚ)))
      = (List.range xs.length).map fun k : ℕ => (k : ℚ) + 1 := by
  unfold histSums accumulate
  rw [histSums_aux xs 0]
  refine List.map_congr_left ?_
  intro k hk
  ring

lemma getD_map_ones (xs : List ℚ) (i : ℕ) (hi : i < xs.length) :
    (xs.map fun p => (p, (1 : ℚ))).getD i (0, 0) = (xs.getD i 0, 1) := by
  rw [List.getD_eq_getElem _ _ (by simpa using hi), List.getD_eq_getElem _ _ hi]
  simp

lemma getD_range_succ (N i : ℕ) (hi : i < N) :
    (((List.range N).map fun k : ℕ => (k : ℚ) + 1)).getD i 0 = (i : ℚ) + 1 := by
  rw [List.getD_eq_getElem _ _ (by simpa using hi)]
  simp

lemma countP_range_min (j : ℕ) (p : ℕ → Bool) (hp : ∀ k, p k = true ↔ k < j) :
    ∀ N, (List.range N).countP p = min N j := by
  intro N
  induction N with
  | zero => simp
  | succ N ih =>
    rw [List.range_succ, List.countP_append, ih]
    by_cases hN : N < j
    · have hpN : p N = true := (hp N).mpr hN
      simp [List.countP_cons, hpN]
      omega
    · have hpN : p N = false := by
        cases hv : p N with
        | false => rfl
        | true => exact absurd ((hp N).mp hv) hN
      simp [List.countP_cons, hpN]
      omega

/-- The bisection step of `_quantile` on the uncompressed prefix-sum list
`[1, ..., N]` lands at `floor(target_sum)`. -/
lemma bisect_sums (N : ℕ) (t : ℚ) (ht1 : 1 ≤ t) (htN : t ≤ (N : ℚ)) :
    bisectRight ratLt ((List.range N).map fun k : ℕ => (k : ℚ) + 1) t = (⌊t⌋).toNat := by
  have hlen : (((List.range N).map fun k : ℕ => (k : ℚ) + 1)).length = N := by simp
  have hval : ∀ i, i < N → (((List.range N).map fun k : ℕ => (k : ℚ) + 1)).getD i t
      = (i : ℚ) + 1 := by
    intro i hi
    rw [List.getD_eq_getElem _ _ (by simpa using hi)]
    simp
  rw [bisectRight_count]
  · rw [List.countP_map]
    have hfl1 : (1 : ℤ) ≤ ⌊t⌋ := Int.le_floor.mpr (by push_cast; linarith)
    have hflN : ⌊t⌋ ≤ (N : ℤ) := by
      have := Int.floor_le_floor htN
      rwa [Int.floor_natCast] at this
    have hp : ∀ k : ℕ, ((fun a => !ratLt t a) ∘ fun k : ℕ => (k : ℚ) + 1) k = true
        ↔ k < (⌊t⌋).toNat := by
      intro k
      simp only [Function.comp_apply, ratLt, Bool.not_eq_true', decide_eq_false_iff_not,
        not_lt]
      constructor
      · intro h
        have h2 : (k : ℤ) + 1 ≤ ⌊t⌋ := Int.le_floor.mpr (by push_cast; linarith)
        omega
      · intro h
        have h2 : ((k : ℤ) + 1 : ℤ) ≤ ⌊t⌋ := by omega
        have h3 : (((k : ℤ) + 1 : ℤ) : ℚ) ≤ t := le_trans (Int.le_floor.mp h2) le_rfl
        push_cast at h3
        linarith
    rw [countP_range_min _ _ hp N]
    omega
  · intro j k hjk hk hj
    rw [hlen] at hk
    rw [hval j (by omega)] at hj
    rw [hval k hk]
    simp only [ratLt, decide_eq_true_eq] at hj ⊢
    have : (j : ℚ) ≤ (k : ℚ) := by exact_mod_cast hjk
    linarith

set_option maxHeartbeats 1000000 in
/-- On an uncompressed histogram (bins = sorted raw points, weight 1 each)
`_quantile` returns exactly the reference linear-interpolation sample
quantile of the sorted raw points, for every fraction in `[0, 1]`. -/
lemma quantileOne_uncompressed (s : ApproximateHistogram) (xs : List ℚ) (q : ℚ)
    (hne : xs ≠ []) (hsorted : xs.Pairwise (· ≤ ·))
    (hbins : s.bins = xs.map fun p => (p, (1 : ℚ)))
    (hcount : s.count = xs.length)
    (hmins : s.hmin = .fin (xs.getD 0 0))
    (hmaxs : s.hmax = .fin (xs.getD (xs.length - 1) 0))
    (hq0 : 0 ≤ q) (hq1 : q ≤ 1) :
    quantileOne s (histSums s.bins) q = .ok (.fin ((refQuantile xs q : ℚ) : ℝ)) := by
  have hN : 0 < xs.length := List.length_pos.mpr hne
  by_cases hc0 : q ≤ 0
  · -- clamped to the minimum
    have hq : q = 0 := le_antisymm hc0 hq0
    subst hq
    rw [quantileOne, if_pos le_rfl, hmins]
    have hrq : refQuantile xs 0 = xs.getD 0 0 := by
      simp [refQuantile]
    rw [hrq]
    rfl
  by_cases hc1 : 1 ≤ q
  · -- clamped to the maximum
    have hq : q = 1 := le_antisymm hq1 hc1
    subst hq
    rw [quantileOne, if_neg (by norm_num), if_pos le_rfl, hmaxs]
    have hrq : refQuantile xs 1 = xs.getD (xs.length - 1) 0 := by
      simp only [refQuantile, one_mul]
      rw [show ((xs.length : ℚ) - 1) = (((xs.length : ℤ) - 1 : ℤ) : ℚ) from by push_cast; ring,
        Int.floor_intCast]
      rw [show ((xs.length : ℤ) - 1).toNat = xs.length - 1 from by omega]
      rw [sub_self, zero_mul, add_zero]
    rw [hrq]
    rfl
  -- interior fraction: 0 < q < 1
  push_neg at hc0 hc1
  rw [quantileOne]
  rw [if_neg (by linarith), if_neg (by linarith)]
  rw [hbins, hcount, histSums_ones]
  dsimp only
  set t := q * ((xs.length : ℚ) - 1) + 1 with htdef
  have hL1 : (1 : ℚ) ≤ (xs.length : ℚ) := by exact_mod_cast hN
  have ht1 : 1 ≤ t := by
    have : 0 ≤ q * ((xs.length : ℚ) - 1) := mul_nonneg hq0 (by linarith)
    rw [htdef]
    linarith
  have htN : t ≤ (xs.length : ℚ) := by
    have := mul_le_of_le_one_left (show (0 : ℚ) ≤ (xs.length : ℚ) - 1 from by linarith) hq1
    rw [htdef]
    linarith
  rw [bisect_sums xs.length t ht1 htN]
  have hfl1 : (1 : ℤ) ≤ ⌊t⌋ := Int.le_floor.mpr (by push_cast; linarith)
  have hflN : ⌊t⌋ ≤ (xs.length : ℤ) := by
    have := Int.floor_le_floor htN
    rwa [Int.floor_natCast] at this
  by_cases hN1 : xs.length = 1
  · -- a single point: the probe sits on the only bin
    have htone : t = 1 := by
      rw [htdef, hN1]
      push_cast
      ring
    rw [htone, Int.floor_one, Int.toNat_one]
    rw [if_pos (show (0 : ℤ) ≤ ((1 : ℕ) : ℤ) - 1 from by norm_num)]
    rw [List.length_map, hN1]
    rw [if_neg (show ¬ (((1 : ℕ) : ℤ) - 1 + 1 < ((1 : ℕ) : ℤ)) from by norm_num)]
    rw [show ((((1 : ℕ) : ℤ) - 1).toNat) = 0 from by norm_num]
    rw [getD_map_ones xs 0 hN]
    have hrq : refQuantile xs q = xs.getD 0 0 := by
      simp only [refQuantile, hN1]
      norm_num
    rw [hrq]
    norm_num [XRat.toPFloat]
  · -- at least two points: exact linear interpolation between adjacent bins
    have hN2 : 2 ≤ xs.length := by omega
    have htlt : t < (xs.length : ℚ) := by
      have := mul_lt_of_lt_one_left
        (show (0 : ℚ) < (xs.length : ℚ) - 1 from by
          have : (2 : ℚ) ≤ (xs.length : ℚ) := by exact_mod_cast hN2
          linarith) hc1
      rw [htdef]
      linarith
    have hflt : ⌊t⌋ < (xs.length : ℤ) := by
      rw [Int.floor_lt]
      push_cast
      exact htlt
    have hj1 : 1 ≤ (⌊t⌋).toNat := by omega
    have hjN : (⌊t⌋).toNat < xs.length := by omega
    have hjm1 : (⌊t⌋).toNat - 1 < xs.length := by omega
    simp only [if_pos (show (0 : ℤ) ≤ (((⌊t⌋).toNat : ℕ) : ℤ) - 1 from by omega)]
    rw [List.length_map]
    rw [if_pos (show ((((⌊t⌋).toNat : ℕ) : ℤ) - 1) + 1 < (xs.length : ℤ) from by push_cast; omega)]
    rw [show (((((⌊t⌋).toNat : ℕ) : ℤ) - 1)).toNat = (⌊t⌋).toNat - 1 from by omega]
    rw [show ((((((⌊t⌋).toNat : ℕ) : ℤ) - 1) + 1)).toNat = (⌊t⌋).toNat from by omega]
    rw [getD_map_ones xs ((⌊t⌋).toNat - 1) hjm1, getD_map_ones xs ((⌊t⌋).toNat) hjN,
      getD_range_succ xs.length ((⌊t⌋).toNat - 1) (by omega)]
    dsimp only
    rw [if_pos (show (1 : ℚ) ≤ 1 ∧ (1 : ℚ) ≤ 1 from ⟨le_rfl, le_rfl⟩)]
    rw [if_pos (show (0 : ℚ) < 1 from one_pos)]
    have hcast1 : (((⌊t⌋).toNat - 1 : ℕ) : ℚ) = ((⌊t⌋ : ℤ) : ℚ) - 1 := by
      have h2 : (((⌊t⌋).toNat : ℕ) : ℚ) = ((⌊t⌋ : ℤ) : ℚ) := by
        exact_mod_cast Int.toNat_of_nonneg (show (0 : ℤ) ≤ ⌊t⌋ from by omega)
      rw [Nat.cast_sub hj1, h2]
      norm_num
    have hrq : refQuantile xs q = xs.getD ((⌊t⌋).toNat - 1) 0
        + (t - ((⌊t⌋ : ℤ) : ℚ)) * (xs.getD ((⌊t⌋).toNat) 0 - xs.getD ((⌊t⌋).toNat - 1) 0) := by
      simp only [refQuantile]
      have hq' : q * ((xs.length : ℚ) - 1) = t - 1 := by
        rw [htdef]
        ring
      rw [hq', show t - 1 = t - ((1 : ℤ) : ℚ) from by norm_num, Int.floor_sub_int]
      rw [show (⌊t⌋ - 1).toNat = (⌊t⌋).toNat - 1 from by omega]
      rw [show (⌊t⌋).toNat - 1 + 1 = (⌊t⌋).toNat from by omega]
      push_cast
      ring
    rw [hrq, hcast1]
    simp only [XRat.toPFloat, PFloat.sub, PFloat.neg, PFloat.add, PFloat.mulQ, PFloat.divQ,
      Except.ok.injEq, PFloat.fin.injEq]
    rw [if_neg (one_ne_zero)]
    push_cast
    ring_nf

/-! ### Claim theorems -/

/-- C2: after every successful sequence of `add()` calls (any number, also
beyond capacity), the weighted sum over the bins equals the sum of all
sample values ever added, the count equals the number of points, and hence
`sum()` is exact and `mean()` returns exactly `sum / count` for a non-empty
sequence.  Merging preserves the weighted sum because the merged bin sits
at the weighted mean. -/
theorem C2_weighted_sum_invariant (m : ℤ) (ps : List ℚ) (s : ApproximateHistogram)
    (hok : addList (emptyHist m) ps = .ok s) :
    histSum s = ps.sum ∧ s.count = ps.length ∧
    (ps ≠ [] → mean s = .ok (ps.sum / (ps.length : ℚ))) := by
  obtain ⟨-, hct, -, -, hvs, -⟩ := addList_ok hok
  have hv0 : valSum (emptyHist m).bins = 0 := by simp [valSum, emptyHist]
  have hc : s.count = ps.length := by rw [hct]; simp [emptyHist]
  have hsum : histSum s = ps.sum := by
    show valSum s.bins = ps.sum
    rw [hvs, hv0, zero_add]
  refine ⟨hsum, hc, fun hne => ?_⟩
  have hlen : (ps.length : ℚ) ≠ 0 := by
    have := List.length_pos.mpr hne
    exact_mod_cast Nat.pos_iff_ne_zero.mp this
  simp only [mean, hc]
  rw [if_neg hlen]
  have : (s.bins.map fun b => b.1 * b.2).sum = ps.sum := hsum
  rw [this]

/-- Witness for C2 at the concrete scenario-B run. -/
theorem C2_weighted_sum_invariant_witness :
    addList (emptyHist 2) [1, 3, 2] = .ok ⟨2, [(3/2, 2), (3, 1)], [3/2], 3, .fin 1, .fin 3⟩ ∧
    (histSum ⟨2, [(3/2, 2), (3, 1)], [3/2], 3, .fin 1, .fin 3⟩ = [(1 : ℚ), 3, 2].sum ∧
      (⟨2, [(3/2, 2), (3, 1)], [3/2], 3, .fin 1, .fin 3⟩ : ApproximateHistogram).count
          = [(1 : ℚ), 3, 2].length ∧
      ([(1 : ℚ), 3, 2] ≠ [] → mean ⟨2, [(3/2, 2), (3, 1)], [3/2], 3, .fin 1, .fin 3⟩
          = .ok ([(1 : ℚ), 3, 2].sum / ([(1 : ℚ), 3, 2].length : ℚ)))) :=
  ⟨by with_unfolding_all decide,
   C2_weighted_sum_invariant 2 [1, 3, 2] _ (by with_unfolding_all decide)⟩

/-- C5 counterexample: on a freshly constructed histogram (max_bins = 10,
no `add` calls), `sum()` returns the value 0 and `quantile(1/2)` returns
the one-element value list `[inf]`; neither fails at all, and `mean()`
fails with ZeroDivisionError.  No EmptyHistogram error class exists
anywhere in the code, so the claim that all four queries fail with
EmptyHistogram is false. -/
theorem C5_counterexample :
    histSum (emptyHist 10) = 0 ∧
    quantilePy (emptyHist 10) (.num (1/2)) = .ok [.inf] ∧
    mean (emptyHist 10) = .error .zeroDivisionError := by
  refine ⟨by simp [histSum, emptyHist], ?_, by simp [mean, emptyHist]⟩
  norm_num [quantilePy, quantileList, quantileOne, histSums, accumulate, accumulateFrom,
    emptyHist, bisectRight, bisectRightAux, XRat.toPFloat]

/-- C5 amended: on a freshly constructed histogram, `mean()` and `std()`
fail with ZeroDivisionError (division by `count == 0`), `sum()` succeeds
and returns 0, and `quantile(q)` succeeds and returns the infinite
min/max sentinels (`+inf` for `q < 1`, `-inf` for `q ≥ 1`); no
EmptyHistogram error exists. -/
theorem C5_empty_queries (m : ℤ) (q : ℚ) :
    mean (emptyHist m) = .error .zeroDivisionError ∧
    std (emptyHist m) = .error .zeroDivisionError ∧
    histSum (emptyHist m) = 0 ∧
    (q < 1 → quantilePy (emptyHist m) (.num q) = .ok [.inf]) ∧
    (1 ≤ q → quantilePy (emptyHist m) (.num q) = .ok [.ninf]) := by
  refine ⟨by simp [mean, emptyHist], by simp [std, mean, emptyHist],
    by simp [histSum, emptyHist], fun hq => ?_, fun hq => ?_⟩
  · by_cases hq0 : q ≤ 0
    · simp [quantilePy, quantileList, quantileOne, histSums, accumulate, accumulateFrom,
        emptyHist, XRat.toPFloat, hq0]
    · simp only [quantilePy, quantileList, quantileOne, histSums, accumulate, accumulateFrom,
        emptyHist, XRat.toPFloat, bisectRight, bisectRightAux]
      rw [if_neg hq0, if_neg (by exact not_le.mpr hq)]
      norm_num
  · simp only [quantilePy, quantileList, quantileOne, histSums, accumulate, accumulateFrom,
      emptyHist, XRat.toPFloat, bisectRight, bisectRightAux]
    rw [if_neg (by linarith), if_pos hq]

/-- Witness for C5 at `max_bins = 7`, `q = 1/2`. -/
theorem C5_empty_queries_witness :
    (1 : ℚ)/2 < 1 ∧ quantilePy (emptyHist 7) (.num (1/2)) = .ok [.inf] :=
  ⟨by norm_num, (C5_empty_queries 7 (1/2)).2.2.2.1 (by norm_num)⟩

/-- C6 counterexample: construction with `max_bins = 0` (not a positive
integer) succeeds and builds the ordinary initial object, rather than
failing with an InvalidConfiguration error. -/
theorem C6_counterexample : mkHistogram 0 = .ok (emptyHist 0) := rfl

/-- C6 amended: `__init__` performs no validation of `max_bins` at all:
construction succeeds for every integer `max_bins` (positive or not) and
initializes empty bins and costs, `count = 0`, `min = +inf`, `max = -inf`;
no InvalidConfiguration error exists in the code. -/
theorem C6_construction_no_validation (m : ℤ) :
    mkHistogram m = .ok ⟨m, [], [], 0, .inf, .ninf⟩ := rfl

/-- C9 counterexample: `quantile` called with the scalar fraction 0 on the
scenario-B histogram returns the one-element list `[1.0]`, not a scalar
float (the method wraps a Number argument into a tuple and always returns
a list), so the claimed `quantile([q])[0] == quantile(q)` compares a float
against a list and is false in Python. -/
theorem C9_counterexample :
    quantilePy ⟨2, [(3/2, 2), (3, 1)], [3/2], 3, .fin 1, .fin 3⟩ (.num 0) = .ok [.fin 1] := by
  norm_num [quantilePy, quantileList, quantileOne, XRat.toPFloat]

/-- C9 amended: the scalar form and the one-element batch form return the
same one-element list: `quantile(q) == quantile([q])`, and hence
`quantile([q])[0] == quantile(q)[0]`. -/
theorem C9_batch_scalar_agree (h : ApproximateHistogram) (q : ℚ) :
    quantilePy h (.num q) = quantilePy h (.seq [q]) := rfl

/-- C4: concrete scenario B with `max_bins = 2` and `add(1)`, `add(3)`,
`add(2)`.  After `add(3)` the bins are `[(1,1),(3,1)]` with costs `[2]`
and no merge took place (count 2, two weight-1 bins).  During `add(2)`
the pre-merge state is bins `[(1,1),(2,1),(3,1)]` with costs `[1,1]`;
the cost tie is broken leftmost (`costs.index(min(costs)) = 0`), and the
completed `add` leaves bins `[(3/2,2),(3,1)]`, count 3, min 1, max 3;
then `mean() = 2` and `sum() = 6` exactly, `quantile(0) = [1]` and
`quantile(1) = [3]`. -/
theorem C4_scenario_B :
    addList (emptyHist 2) [1, 3] = .ok ⟨2, [(1, 1), (3, 1)], [2], 2, .fin 1, .fin 3⟩ ∧
    insertWithCost [2] [(1, 1), (3, 1)] ((2 : ℚ), 1) = .ok ([(1, 1), (2, 1), (3, 1)], [1, 1]) ∧
    minIndex [1, 1] = .ok 0 ∧
    add ⟨2, [(1, 1), (3, 1)], [2], 2, .fin 1, .fin 3⟩ 2
      = .ok ⟨2, [(3/2, 2), (3, 1)], [3/2], 3, .fin 1, .fin 3⟩ ∧
    mean ⟨2, [(3/2, 2), (3, 1)], [3/2], 3, .fin 1, .fin 3⟩ = .ok 2 ∧
    histSum ⟨2, [(3/2, 2), (3, 1)], [3/2], 3, .fin 1, .fin 3⟩ = 6 ∧
    quantilePy ⟨2, [(3/2, 2), (3, 1)], [3/2], 3, .fin 1, .fin 3⟩ (.num 0) = .ok [.fin 1] ∧
    quantilePy ⟨2, [(3/2, 2), (3, 1)], [3/2], 3, .fin 1, .fin 3⟩ (.num 1) = .ok [.fin 3] := by
  refine ⟨by with_unfolding_all decide, by with_unfolding_all decide,
    by with_unfolding_all decide, by with_unfolding_all decide, by with_unfolding_all decide,
    by with_unfolding_all decide, ?_, ?_⟩
  · norm_num [quantilePy, quantileList, quantileOne, XRat.toPFloat]
  · norm_num [quantilePy, quantileList, quantileOne, XRat.toPFloat]

/-- C7 counterexample: the reachable scenario-B state (max_bins = 2 after
add(1), add(3), add(2)) holds the bin `(3/2, 2)` whose value equals the
new point `3/2`; inserting `3/2` computes insertion index 0, i.e. BEFORE
the equal-valued bin, because `bisect_right` compares `(value, weight)`
tuples lexicographically and `(3/2, 1) < (3/2, 2)`.  The claim that the
new singleton always lands after all equal-valued bins regardless of
their weights is therefore false. -/
theorem C7_counterexample :
    addList (emptyHist 2) [1, 3, 2] = .ok ⟨2, [(3/2, 2), (3, 1)], [3/2], 3, .fin 1, .fin 3⟩ ∧
    bisectRight pairLt [((3 : ℚ)/2, 2), (3, 1)] (3/2, 1) = 0 := by
  constructor <;> with_unfolding_all decide

/-- C7 amended: the insertion index is located by binary search comparing
`(value, weight)` tuples lexicographically.  On a lexicographically sorted
bins list the returned index counts exactly the bins that compare
not-greater than the probe, and an equal-valued bin compares not-greater
than the new singleton `(point, 1)` precisely when its weight is at most 1:
ties resolve to the right of equal-valued weight-1 bins, but to the left
of equal-valued bins with weight greater than 1. -/
theorem C7_insertion_tie_breaking :
    (∀ (l : List (ℚ × ℚ)) (x : ℚ × ℚ), l.Pairwise pairLeP →
        bisectRight pairLt l x = l.countP fun b => !pairLt x b) ∧
    (∀ p w : ℚ, (!pairLt (p, 1) (p, w)) = decide (w ≤ 1)) := by
  constructor
  · intro l x hs
    refine bisectRight_count pairLt l x ?_
    intro j k hjk hk htrue
    rcases eq_or_lt_of_le hjk with h | h
    · rw [← h]; exact htrue
    · refine pairLt_of_lt_of_le htrue ?_
      have hj : j < l.length := by omega
      rw [List.getD_eq_getElem _ _ hj, List.getD_eq_getElem _ _ hk]
      exact List.pairwise_iff_getElem.mp hs j k hj hk h
  · intro p w
    by_cases hw : w ≤ 1
    · have : ¬(1 : ℚ) < w := not_lt.mpr hw
      simp [pairLt, hw, this]
    · have : (1 : ℚ) < w := not_le.mp hw
      simp [pairLt, hw, this]

/-- Witness for C7 on the sorted scenario-B bins list. -/
theorem C7_insertion_tie_breaking_witness :
    List.Pairwise pairLeP [((3 : ℚ)/2, 2), (3, 1)] ∧
    bisectRight pairLt [((3 : ℚ)/2, 2), (3, 1)] ((3 : ℚ)/2, 1)
      = List.countP (fun b => !pairLt ((3 : ℚ)/2, 1) b) [((3 : ℚ)/2, 2), (3, 1)] := by
  have hp : List.Pairwise pairLeP [((3 : ℚ)/2, 2), (3, 1)] := by
    refine List.pairwise_cons.mpr ⟨?_, List.pairwise_singleton _ _⟩
    intro b hb
    rw [List.mem_singleton.mp hb]
    exact Or.inl (by norm_num)
  exact ⟨hp, C7_insertion_tie_breaking.1 _ _ hp⟩

/-- C8: on every non-empty, reachable histogram, `quantile(q)` with
`q ≤ 0` returns exactly the minimum of all samples added, and with
`q ≥ 1` exactly the maximum; out-of-range fractions are clamped this
way rather than rejected, so `quantile(0) = min` and `quantile(1) = max`. -/
theorem C8_quantile_clamps (m : ℤ) (ps : List ℚ) (s : ApproximateHistogram) (q : ℚ)
    (hok : addList (emptyHist m) ps = .ok s) (hne : ps ≠ []) :
    (q ≤ 0 → ∃ a : ℚ, quantilePy s (.num q) = .ok [.fin (a : ℝ)] ∧ a ∈ ps ∧
      ∀ x ∈ ps, a ≤ x) ∧
    (1 ≤ q → ∃ b : ℚ, quantilePy s (.num q) = .ok [.fin (b : ℝ)] ∧ b ∈ ps ∧
      ∀ x ∈ ps, x ≤ b) := by
  obtain ⟨-, -, hmn, hmx, -, -⟩ := addList_ok hok
  have hmn2 : s.hmin = ps.foldl XRat.minQ .inf := by rw [hmn]; rfl
  have hmx2 : s.hmax = ps.foldl XRat.maxQ .ninf := by rw [hmx]; rfl
  constructor
  · intro hq
    obtain ⟨a, ha1, ha2, ha3⟩ := foldl_minQ_inf ps hne
    refine ⟨a, ?_, ha2, ha3⟩
    show quantileList s (histSums s.bins) [q] = _
    rw [quantileList_singleton]
    rw [show quantileOne s (histSums s.bins) q = .ok s.hmin.toPFloat from by
      rw [quantileOne, if_pos hq]]
    rw [hmn2, ha1]
    rfl
  · intro hq
    obtain ⟨b, hb1, hb2, hb3⟩ := foldl_maxQ_ninf ps hne
    refine ⟨b, ?_, hb2, hb3⟩
    show quantileList s (histSums s.bins) [q] = _
    rw [quantileList_singleton]
    rw [show quantileOne s (histSums s.bins) q = .ok s.hmax.toPFloat from by
      rw [quantileOne, if_neg (by linarith), if_pos hq]]
    rw [hmx2, hb1]
    rfl

/-- Witness for C8 with points `[2, 1]`, `max_bins = 3`, at `q = 0` and
`q = 1`. -/
theorem C8_quantile_clamps_witness :
    (addList (emptyHist 3) [2, 1] = .ok ⟨3, [(1, 1), (2, 1)], [1], 2, .fin 1, .fin 2⟩ ∧
      ([(2 : ℚ), 1] ≠ [])) ∧
    (∃ a : ℚ, quantilePy ⟨3, [(1, 1), (2, 1)], [1], 2, .fin 1, .fin 2⟩ (.num 0)
        = .ok [.fin (a : ℝ)] ∧ a ∈ [(2 : ℚ), 1] ∧ ∀ x ∈ [(2 : ℚ), 1], a ≤ x) ∧
    (∃ b : ℚ, quantilePy ⟨3, [(1, 1), (2, 1)], [1], 2, .fin 1, .fin 2⟩ (.num 1)
        = .ok [.fin (b : ℝ)] ∧ b ∈ [(2 : ℚ), 1] ∧ ∀ x ∈ [(2 : ℚ), 1], x ≤ b) := by
  have hadd : addList (emptyHist 3) [2, 1]
      = .ok ⟨3, [(1, 1), (2, 1)], [1], 2, .fin 1, .fin 2⟩ := by
    with_unfolding_all decide
  have hne : [(2 : ℚ), 1] ≠ [] := by simp
  exact ⟨⟨hadd, hne⟩,
    (C8_quantile_clamps 3 [2, 1] _ 0 hadd hne).1 le_rfl,
    (C8_quantile_clamps 3 [2, 1] _ 1 hadd hne).2 le_rfl⟩

/-- C10: construction with `max_bins = 0` succeeds (no validation), and
an `add()` call on the fresh histogram always fails: after the singleton
insertion one bin exceeds the zero capacity and `min(costs)` is taken of
the empty costs list, raising ValueError, so no histogram constructed
with `max_bins = 0` ever completes an `add()` chain. -/
theorem C10_max_bins_zero (p : ℚ) (ps : List ℚ) :
    mkHistogram 0 = .ok (emptyHist 0) ∧
    add (emptyHist 0) p = .error .valueError ∧
    addList (emptyHist 0) (p :: ps) = .error .valueError := by
  have hadd : add (emptyHist 0) p = .error .valueError := rfl
  exact ⟨rfl, hadd, by unfold addList; rw [hadd]⟩

/-- C3: for every histogram constructed with max_bins at least 2, after
every successful sequence of add() calls the structural invariants hold:
the bins are sorted ascending by value, len(bins) is at most max_bins,
len(costs) = len(bins) - 1 with each costs[i] equal to the live value gap
bins[i+1].value - bins[i].value (the incrementally updated cost ledger
never drifts from the live gaps), and the total bin weight equals count. -/
theorem C3_structural_invariants (m : ℤ) (ps : List ℚ) (s : ApproximateHistogram)
    (hm : 2 ≤ m) (hok : addList (emptyHist m) ps = .ok s) :
    s.bins.Pairwise (fun a b => a.1 ≤ b.1) ∧
    (s.bins.length : ℤ) ≤ m ∧
    s.costs.length = s.bins.length - 1 ∧
    (∀ i, i + 1 < s.bins.length →
      s.costs.getD i 0 = (s.bins.getD (i + 1) (0, 0)).1 - (s.bins.getD i (0, 0)).1) ∧
    wSum s.bins = (s.count : ℚ) := by
  obtain ⟨hsort, hcost, -, hlen⟩ :=
    addList_preserves_invariant hm (emptyHist_invariant (by omega)) hok
  obtain ⟨hmb, hcnt, -, -, -, hw⟩ := addList_ok hok
  refine ⟨hsort, ?_, ?_, ?_, ?_⟩
  · rw [hmb] at hlen
    exact hlen
  · rw [hcost, gaps_length]
  · intro i hi
    have hbg : i < (gaps s.bins).length := by rw [gaps_length]; omega
    rw [hcost, List.getD_eq_getElem _ _ hbg, List.getD_eq_getElem _ _ hi,
        List.getD_eq_getElem _ _ (show i < s.bins.length from by omega)]
    exact gaps_get s.bins i hi hbg
  · rw [hw, hcnt]
    simp [wSum, emptyHist]

/-- Witness for C3 at the concrete scenario-B run. -/
theorem C3_structural_invariants_witness :
    ((2 : ℤ) ≤ 2 ∧
      addList (emptyHist 2) [1, 3, 2]
        = .ok ⟨2, [(3/2, 2), (3, 1)], [3/2], 3, .fin 1, .fin 3⟩) ∧
    wSum (⟨2, [(3/2, 2), (3, 1)], [3/2], 3, .fin 1, .fin 3⟩ : ApproximateHistogram).bins
      = (((⟨2, [(3/2, 2), (3, 1)], [3/2], 3, .fin 1, .fin 3⟩ :
          ApproximateHistogram).count : ℕ) : ℚ) :=
  ⟨⟨by norm_num, by with_unfolding_all decide⟩,
   (C3_structural_invariants 2 [1, 3, 2]
      ⟨2, [(3/2, 2), (3, 1)], [3/2], 3, .fin 1, .fin 3⟩ (by norm_num)
      (by with_unfolding_all decide)).2.2.2.2⟩

/-- C1: for any non-empty sequence of `N <=max_bins` points, every bin of
the resulting histogram is an exact weight-1 sample, and the queries are
exact: `quantile(q)` for every fraction in `[0, 1]` equals the reference
linear-interpolation sample quantile of the sorted raw points, `sum()` is
the raw sum, `mean()` is the raw mean, the min/max trackers hold the raw
minimum and maximum (the first and last sorted points), and the count
is `N`. -/
theorem C1_exactness_under_capacity (m : ℤ) (ps : List ℚ) (s : ApproximateHistogram)
    (hne : ps ≠ []) (hcap : (ps.length : ℤ) ≤ m)
    (hok : addList (emptyHist m) ps = .ok s) :
    (∀ q : ℚ, 0 ≤ q → q ≤ 1 →
      quantilePy s (.num q) = .ok [.fin ((refQuantile (sortPoints ps) q : ℚ) : ℝ)]) ∧
    histSum s = ps.sum ∧
    mean s = .ok (ps.sum / (ps.length : ℚ)) ∧
    s.hmin = .fin ((sortPoints ps).getD 0 0) ∧
    s.hmax = .fin ((sortPoints ps).getD ((sortPoints ps).length - 1) 0) ∧
    s.count = ps.length := by
  obtain ⟨hmb, hcnt, hmn, hmx, hvs, -⟩ := addList_ok hok
  have hbins := addList_uncompressed hcap hok
  set xs := sortPoints ps with hxs
  have hlenxs : xs.length = ps.length := (List.perm_insertionSort (· ≤ ·) ps).length_eq
  have hxsne : xs ≠ [] := by
    intro h
    have h0 : ps.length = 0 := by rw [← hlenxs, h]; rfl
    exact hne (List.length_eq_zero.mp h0)
  have hsortxs : xs.Pairwise (· ≤ ·) := List.sorted_insertionSort (· ≤ ·) ps
  have hcount : s.count = ps.length := by
    rw [hcnt]
    simp [emptyHist]
  have hminfold : s.hmin = ps.foldl XRat.minQ .inf := by rw [hmn]; rfl
  have hmaxfold : s.hmax = ps.foldl XRat.maxQ .ninf := by rw [hmx]; rfl
  obtain ⟨a, ha1, ha2, ha3⟩ := foldl_minQ_inf ps hne
  obtain ⟨b, hb1, hb2, hb3⟩ := foldl_maxQ_ninf ps hne
  have hamem : a ∈ xs := ((List.perm_insertionSort (· ≤ ·) ps).mem_iff).mpr ha2
  have hbmem : b ∈ xs := ((List.perm_insertionSort (· ≤ ·) ps).mem_iff).mpr hb2
  have hamin : ∀ x ∈ xs, a ≤ x := fun x hx =>
    ha3 x (((List.perm_insertionSort (· ≤ ·) ps).mem_iff).mp hx)
  have hbmax : ∀ x ∈ xs, x ≤ b := fun x hx =>
    hb3 x (((List.perm_insertionSort (· ≤ ·) ps).mem_iff).mp hx)
  have hminval : s.hmin = .fin (xs.getD 0 0) := by
    rw [hminfold, ha1, sorted_head_eq_min hxsne hsortxs hamem hamin]
  have hmaxval : s.hmax = .fin (xs.getD (xs.length - 1) 0) := by
    rw [hmaxfold, hb1, sorted_last_eq_max hxsne hsortxs hbmem hbmax]
  have hsum : histSum s = ps.sum := by
    show valSum s.bins = ps.sum
    rw [hvs]
    simp [valSum, emptyHist]
  have hlp : 0 < ps.length := List.length_pos.mpr hne
  have hcne : ¬ ((s.count : ℕ) : ℚ) = 0 := by
    rw [hcount]
    exact Nat.cast_ne_zero.mpr (by omega)
  have hmean : mean s = .ok (ps.sum / (ps.length : ℚ)) := by
    unfold mean
    rw [if_neg hcne, hcount,
      show (s.bins.map fun b => b.1 * b.2).sum = ps.sum from hsum]
  refine ⟨?_, hsum, hmean, hminval, hmaxval, hcount⟩
  intro q hq0 hq1
  show quantileList s (histSums s.bins) [q] = _
  rw [quantileList_singleton,
    quantileOne_uncompressed s xs q hxsne hsortxs hbins (by rw [hcount, hlenxs])
      hminval hmaxval hq0 hq1]

/-- Witness for C1 at `max_bins = 3`, points `[2, 1, 3]`, median query. -/
theorem C1_exactness_under_capacity_witness :
    (([2, 1, 3] : List ℚ) ≠ [] ∧ (([2, 1, 3] : List ℚ).length : ℤ) ≤ 3 ∧
      addList (emptyHist 3) [2, 1, 3]
        = .ok ⟨3, [(1, 1), (2, 1), (3, 1)], [1, 1], 3, .fin 1, .fin 3⟩) ∧
    quantilePy ⟨3, [(1, 1), (2, 1), (3, 1)], [1, 1], 3, .fin 1, .fin 3⟩ (.num (1/2))
      = .ok [.fin ((2 : ℚ) : ℝ)] ∧
    histSum ⟨3, [(1, 1), (2, 1), (3, 1)], [1, 1], 3, .fin 1, .fin 3⟩ = ([2, 1, 3] : List ℚ).sum := by
  have hne : ([2, 1, 3] : List ℚ) ≠ [] := by simp
  have hcap : (([2, 1, 3] : List ℚ).length : ℤ) ≤ 3 := by simp
  have hadd : addList (emptyHist 3) [2, 1, 3]
      = .ok ⟨3, [(1, 1), (2, 1), (3, 1)], [1, 1], 3, .fin 1, .fin 3⟩ := by
    with_unfolding_all decide
  refine ⟨⟨hne, hcap, hadd⟩, ?_, (C1_exactness_under_capacity 3 [2, 1, 3] _ hne hcap hadd).2.1⟩
  have hq := (C1_exactness_under_capacity 3 [2, 1, 3] _ hne hcap hadd).1 (1/2)
    (by norm_num) (by norm_num)
  rw [hq]
  have : refQuantile (sortPoints [2, 1, 3]) (1/2) = 2 := by
    with_unfolding_all decide
  rw [this]

end PerfTimer
